import Mathlib

/-!
Verification of the zipper/builder binary delta codec.

This file gives a shallow embedding of the Python sources `zipper.py`
(RLE codec, block dictionary, patch encoder) and `builder.py` (patch
decoder/applier), and proves or refutes the specification claims about
them.  Byte strings are modelled as `List Nat`; Python `bytes` slicing
`data[a:b]` is `pySlice data a b`; Python loops are modelled as
fuel-indexed structural recursions where the fuel supplied by the
wrapper functions provably suffices (each loop iteration advances its
cursor by at least one).  Fallible Python code (functions that can raise
`ValueError`/`IndexError`) returns `Option`.
-/

/-- Python slice `data[a:b]` (for `a ≤ b`; clamps at the end of the list). -/
def pySlice (data : List Nat) (a b : Nat) : List Nat :=
  (data.drop a).take (b - a)

/-- Python `int.from_bytes(bs, "big")`. -/
def fromBytesBE (bs : List Nat) : Nat :=
  bs.foldl (fun acc b => acc * 256 + b) 0

/-- Python `j.to_bytes(3, "big")` (defined for `j < 2^24`, which the encoder guarantees). -/
def bytes3 (j : Nat) : List Nat :=
  [j / 65536 % 256, j / 256 % 256, j % 256]

/-! ## RLE codec (`zipper.rle_encode` / `zipper.rle_decode`) -/

/-- The inner run-scanning loop of `rle_encode`:
`while i + run_len < n and data[i + run_len] == run_byte and run_len < 129: run_len += 1`. -/
def runLength (data : List Nat) (i b : Nat) : Nat → Nat → Nat
  | runLen, 0 => runLen
  | runLen, fuel + 1 =>
    if i + runLen < data.length ∧ data.getD (i + runLen) 0 = b ∧ runLen < 129 then
      runLength data i b (runLen + 1) fuel
    else runLen

/-- The literal-collecting loop of `rle_encode`; returns `(lit_len, i)` after the loop. -/
def litScan (data : List Nat) : Nat → Nat → Nat → Nat × Nat
  | i, litLen, fuel =>
    if litLen < 128 ∧ i < data.length then
      if i + 1 < data.length ∧ data.getD i 0 = data.getD (i + 1) 0 then (litLen, i)
      else
        match fuel with
        | 0 => (litLen, i)
        | fuel + 1 => litScan data (i + 1) (litLen + 1) fuel
    else (litLen, i)

/-- The main `while i < n` loop of `rle_encode`. -/
def rleEncodeLoop (data : List Nat) : Nat → Nat → List Nat
  | i, fuel =>
    if i < data.length then
      match fuel with
      | 0 => []
      | fuel + 1 =>
        let b := data.getD i 0
        let rl := runLength data i b 1 data.length
        if 2 ≤ rl then
          (128 ||| (rl - 2)) :: b :: rleEncodeLoop data (i + rl) fuel
        else
          let s := litScan data (i + 1) 1 data.length
          (s.1 - 1) :: (pySlice data i (i + s.1) ++ rleEncodeLoop data s.2 fuel)
    else []

/-- `zipper.rle_encode`. -/
def rle_encode (data : List Nat) : List Nat :=
  rleEncodeLoop data 0 data.length

/-- The `while i < len(data)` loop of `rle_decode`.  A repeat-run control byte
whose repeated byte is missing raises `IndexError` in Python (`data[i]` out of
range), modelled as `none`; a literal run slices, which silently clamps. -/
def rleDecodeLoop (data : List Nat) : Nat → Nat → Option (List Nat)
  | i, fuel =>
    if i < data.length then
      match fuel with
      | 0 => none
      | fuel + 1 =>
        let ctrl := data.getD i 0
        if ctrl &&& 128 ≠ 0 then
          if i + 1 < data.length then
            (rleDecodeLoop data (i + 2) fuel).map
              (fun t => List.replicate ((ctrl &&& 127) + 2) (data.getD (i + 1) 0) ++ t)
          else none
        else
          (rleDecodeLoop data (i + 1 + ((ctrl &&& 127) + 1)) fuel).map
            (fun t => pySlice data (i + 1) (i + 1 + ((ctrl &&& 127) + 1)) ++ t)
    else some []

/-- `zipper.rle_decode`. -/
def rle_decode (data : List Nat) : Option (List Nat) :=
  rleDecodeLoop data 0 data.length

/-! ## Block dictionary (`zipper._build_lookup`) -/

/-- The offsets visited by pass 1 of `_build_lookup`:
`range(0, cap - patch_size + 1, patch_size)` (empty when `cap < patch_size`). -/
def alignedOffsets (cap B : Nat) : List Nat :=
  if B ≤ cap then (List.range (cap - B + 1)).filter (fun j => j % B == 0) else []

/-- The offsets visited by pass 2 of `_build_lookup`:
`j in range(0, cap - patch_size + 1)` with `j % patch_size != 0`. -/
def unalignedOffsets (cap B : Nat) : List Nat :=
  if B ≤ cap then (List.range (cap - B + 1)).filter (fun j => !(j % B == 0)) else []

/-- Python `dict` membership/lookup on the association-list model. -/
def assocFind (key : List Nat) : List (List Nat × Nat) → Option Nat
  | [] => none
  | kv :: rest => if kv.1 = key then some kv.2 else assocFind key rest

/-- `if key not in lookup: lookup[key] = j`. -/
def insertKey (lk : List (List Nat × Nat)) (key : List Nat) (j : Nat) :
    List (List Nat × Nat) :=
  match assocFind key lk with
  | some _ => lk
  | none => lk ++ [(key, j)]

/-- `zipper._build_lookup`: aligned pass first, then unaligned pass. -/
def build_lookup (file2 : List Nat) (B : Nat) : List (List Nat × Nat) :=
  let cap := min file2.length 16777216
  let lk1 := (alignedOffsets cap B).foldl
    (fun lk j => insertKey lk (pySlice file2 j (j + B)) j) []
  (unalignedOffsets cap B).foldl
    (fun lk j => insertKey lk (pySlice file2 j (j + B)) j) lk1

/-! ## Patch encoder (`zipper.generate_patch`) -/

/-- The per-block classification in the first loop of `generate_patch`:
the `(rec_type, data)` tuple appended for the full block at byte offset `pos`. -/
def classifyBlock (file1 file2 : List Nat) (B : Nat) (lookup : List (List Nat × Nat))
    (pos : Nat) : Nat × List Nat :=
  let block := pySlice file1 pos (pos + B)
  if pos + B ≤ file2.length ∧ pySlice file2 pos (pos + B) = block then (0x43, [])
  else
    match assocFind block lookup with
    | some j => (0x52, bytes3 j)
    | none =>
      if pos + B ≤ file2.length then
        let rle := rle_encode (List.zipWith Nat.xor block (pySlice file2 pos (pos + B)))
        if rle.length < B then (0x58, rle) else (0x49, block)
      else (0x49, block)

/-- Number of consecutive `0x43` records at the head of a record list
(the `while records[i + run][0] == 0x43` scan). -/
def leadC : List (Nat × List Nat) → Nat
  | [] => 0
  | r :: rs => if r.1 = 0x43 then leadC rs + 1 else 0

/-- The chunked emission of a run of `0x43` records:
`while remaining > 1: n = min(remaining, 256); emit 0x44 (n-1); remaining -= n`
followed by `if remaining == 1: emit 0x43`. -/
def chunkD : Nat → Nat → List Nat
  | remaining, fuel =>
    if 1 < remaining then
      match fuel with
      | 0 => []
      | fuel + 1 =>
        0x44 :: (min remaining 256 - 1) :: chunkD (remaining - min remaining 256) fuel
    else if remaining = 1 then [0x43] else []

/-- The record-emission loop of `generate_patch`, collapsing consecutive
`0x43` records into `0x44` run records. -/
def emitRecords : List (Nat × List Nat) → Nat → List Nat
  | [], _ => []
  | _ :: _, 0 => []
  | r :: rs, fuel + 1 =>
    if r.1 = 0x43 then
      (if leadC rs + 1 = 1 then [0x43] else chunkD (leadC rs + 1) (leadC rs + 1)) ++
        emitRecords (rs.drop (leadC rs + 1 - 1)) fuel
    else if r.1 = 0x58 then
      0x58 :: r.2.length :: (r.2 ++ emitRecords rs fuel)
    else
      r.1 :: (r.2 ++ emitRecords rs fuel)

/-- `zipper.generate_patch file1 file2 patch_size`: `file1` is the target being
encoded, `file2` the reference. -/
def generate_patch (file1 file2 : List Nat) (B : Nat) : List Nat :=
  let lookup := build_lookup file2 B
  let numFull := file1.length / B
  let remainder := file1.length % B
  let records := (List.range numFull).map (fun idx => classifyBlock file1 file2 B lookup (idx * B))
  let body := emitRecords records records.length
  let tail := if remainder ≠ 0 then 0x50 :: remainder :: file1.drop (numFull * B) else []
  B :: (body ++ tail)

/-! ## Patch decoder (`builder.apply_patch` / `builder.decode_bin`) -/

/-- The inner `for _ in range(count)` loop of the `0x44` branch:
repeatedly append `ref[out_pos : out_pos + patch_size]` and advance `out_pos`. -/
def dLoop (ref : List Nat) (B : Nat) : Nat → List Nat × Nat → List Nat × Nat
  | 0, s => s
  | c + 1, s => dLoop ref B c (s.1 ++ pySlice ref s.2 (s.2 + B), s.2 + B)

/-- The record-parsing loop of `apply_patch`.  State: read cursor `pos`, output
buffer `out`, write cursor `w` (`out_pos`).  Returns the final `(out, out_pos)`
on normal termination, `none` on any `ValueError`/`IndexError`. -/
def applyLoop (patch ref : List Nat) (B : Nat) : Nat → List Nat → Nat → Nat →
    Option (List Nat × Nat)
  | pos, out, w, fuel =>
    if pos < patch.length then
      match fuel with
      | 0 => none
      | fuel + 1 =>
        let tag := patch.getD pos 0
        if tag = 0x00 then some (out, w)
        else if tag = 0x43 then
          applyLoop patch ref B (pos + 1) (out ++ pySlice ref w (w + B)) (w + B) fuel
        else if tag = 0x44 then
          if patch.length < pos + 2 then none
          else
            applyLoop patch ref B (pos + 2)
              (dLoop ref B (patch.getD (pos + 1) 0 + 1) (out, w)).1
              (dLoop ref B (patch.getD (pos + 1) 0 + 1) (out, w)).2 fuel
        else if tag = 0x52 then
          if patch.length < pos + 4 then none
          else
            applyLoop patch ref B (pos + 4)
              (out ++ pySlice ref (fromBytesBE (pySlice patch (pos + 1) (pos + 4)))
                (fromBytesBE (pySlice patch (pos + 1) (pos + 4)) + B)) (w + B) fuel
        else if tag = 0x49 then
          if patch.length < pos + 1 + B then none
          else
            applyLoop patch ref B (pos + 1 + B)
              (out ++ pySlice patch (pos + 1) (pos + 1 + B)) (w + B) fuel
        else if tag = 0x58 then
          if patch.length < pos + 2 then none
          else
            if patch.length < pos + 2 + patch.getD (pos + 1) 0 then none
            else
              match rle_decode (pySlice patch (pos + 2) (pos + 2 + patch.getD (pos + 1) 0)) with
              | none => none
              | some d =>
                applyLoop patch ref B (pos + 2 + patch.getD (pos + 1) 0)
                  (out ++ List.zipWith Nat.xor d (pySlice ref w (w + B))) (w + B) fuel
        else if tag = 0x50 then
          if patch.length < pos + 2 then none
          else
            if patch.length < pos + 2 + patch.getD (pos + 1) 0 then none
            else
              applyLoop patch ref B (pos + 2 + patch.getD (pos + 1) 0)
                (out ++ pySlice patch (pos + 2) (pos + 2 + patch.getD (pos + 1) 0)) w fuel
        else none
    else some (out, w)

/-- `builder.apply_patch patch_bin reference`: returns the reconstructed bytes,
or `none` on any raised error. -/
def apply_patch (patch_bin reference : List Nat) : Option (List Nat) :=
  if patch_bin.length < 1 then none
  else
    if patch_bin.getD 0 0 = 0 ∨ patch_bin.getD 0 0 % 8 ≠ 0 then none
    else
      (applyLoop patch_bin (reference ++ List.replicate (patch_bin.getD 0 0) 0)
        (patch_bin.getD 0 0) 1 [] 0 patch_bin.length).map Prod.fst

/-- `builder.decode_bin` on the file's bytes: split raw patch and stored CRC-32;
a file shorter than 5 bytes raises `ValueError`. -/
def decode_bin (raw : List Nat) : Option (List Nat × Nat) :=
  if raw.length < 5 then none
  else some (raw.take (raw.length - 4), fromBytesBE (raw.drop (raw.length - 4)))

/-! ## Derived predicates used to state the claims -/

/-- Parses a byte stream consisting solely of `C` (`0x43`) and `D` (`0x44`)
records and counts the emitted blocks; any other tag yields `none`. -/
def cdBlocks : List Nat → Option Nat
  | [] => some 0
  | 0x43 :: s => (cdBlocks s).map (fun n => n + 1)
  | 0x44 :: c :: s => (cdBlocks s).map (fun n => n + (c + 1))
  | _ => none

/-- Checks a `C`/`D` byte stream and requires every `D` count byte to be at
least 1 (i.e. a run of at least 2 blocks). -/
def dOk : List Nat → Bool
  | [] => true
  | 0x43 :: s => dOk s
  | 0x44 :: c :: s => decide (1 ≤ c) && dOk s
  | _ => false

/-- Walks a patch stream in lockstep with `applyLoop` and checks that every
block read is in bounds of the unpadded reference (start offset at most
`refLen`), that every `X` delta decodes to exactly `B` bytes, and that any `P`
record is final (end of stream or trailing `0x00` padding of positive length
below `B`).  Positions where `applyLoop` raises are accepted vacuously. -/
def readsOk (patch : List Nat) (refLen B : Nat) : Nat → Nat → Nat → Bool
  | pos, w, fuel =>
    if pos < patch.length then
      match fuel with
      | 0 => false
      | fuel + 1 =>
        let tag := patch.getD pos 0
        if tag = 0x00 then true
        else if tag = 0x43 then
          decide (w ≤ refLen) && readsOk patch refLen B (pos + 1) (w + B) fuel
        else if tag = 0x44 then
          if patch.length < pos + 2 then true
          else
            decide (w + patch.getD (pos + 1) 0 * B ≤ refLen) &&
              readsOk patch refLen B (pos + 2) (w + (patch.getD (pos + 1) 0 + 1) * B) fuel
        else if tag = 0x52 then
          if patch.length < pos + 4 then true
          else
            decide (fromBytesBE (pySlice patch (pos + 1) (pos + 4)) ≤ refLen) &&
              readsOk patch refLen B (pos + 4) (w + B) fuel
        else if tag = 0x49 then
          if patch.length < pos + 1 + B then true
          else readsOk patch refLen B (pos + 1 + B) (w + B) fuel
        else if tag = 0x58 then
          if patch.length < pos + 2 then true
          else
            if patch.length < pos + 2 + patch.getD (pos + 1) 0 then true
            else
              match rle_decode (pySlice patch (pos + 2) (pos + 2 + patch.getD (pos + 1) 0)) with
              | none => true
              | some d =>
                decide (d.length = B ∧ w ≤ refLen) &&
                  readsOk patch refLen B (pos + 2 + patch.getD (pos + 1) 0) (w + B) fuel
        else if tag = 0x50 then
          if patch.length < pos + 2 then true
          else
            if patch.length < pos + 2 + patch.getD (pos + 1) 0 then true
            else
              decide (0 < patch.getD (pos + 1) 0 ∧ patch.getD (pos + 1) 0 < B ∧
                (pos + 2 + patch.getD (pos + 1) 0 = patch.length ∨
                  patch.getD (pos + 2 + patch.getD (pos + 1) 0) 0 = 0))
        else true
    else true

/-- Correctness of a single classification record for target block `k`:
decoding it against the reference appends exactly block `k` of `file1`. -/
def goodRec (file1 file2 : List Nat) (B : Nat) (r : Nat × List Nat) (k : Nat) : Prop :=
  (r = (0x43, []) ∧ k * B + B ≤ file2.length ∧
    pySlice file2 (k * B) (k * B + B) = pySlice file1 (k * B) (k * B + B))
  ∨ (∃ j, r = (0x52, bytes3 j) ∧ j < 16777216 ∧ j + B ≤ file2.length ∧
      pySlice file2 j (j + B) = pySlice file1 (k * B) (k * B + B))
  ∨ (∃ d, r = (0x58, rle_encode d) ∧ d.length = B ∧ k * B + B ≤ file2.length ∧
      List.zipWith Nat.xor d (pySlice file2 (k * B) (k * B + B)) =
        pySlice file1 (k * B) (k * B + B))
  ∨ (r = (0x49, pySlice file1 (k * B) (k * B + B)) ∧
      (pySlice file1 (k * B) (k * B + B)).length = B)

/-- A record list whose `m`-th record is good for block `k + m`. -/
inductive Goods (file1 file2 : List Nat) (B : Nat) : List (Nat × List Nat) → Nat → Prop
  | nil (k : Nat) : Goods file1 file2 B [] k
  | cons {r rs k} : goodRec file1 file2 B r k → Goods file1 file2 B rs (k + 1) →
      Goods file1 file2 B (r :: rs) k

/-! ## List helpers -/

theorem take_add' : ∀ (t : List Nat) (m n : Nat),
    t.take (m + n) = t.take m ++ (t.drop m).take n
  | _, 0, _ => by simp
  | [], m + 1, n => by simp
  | x :: xs, m + 1, n => by
    simp only [Nat.add_right_comm, List.take_succ_cons, List.drop_succ_cons, List.cons_append]
    rw [Nat.add_comm m n, Nat.add_comm n m]
    exact congrArg (x :: ·) (take_add' xs m n)

theorem drop_append_le : ∀ (l z : List Nat) (a : Nat), a ≤ l.length →
    (l ++ z).drop a = l.drop a ++ z
  | _, _, 0, _ => by simp
  | [], _, a + 1, h => by simp at h
  | x :: xs, z, a + 1, h => by
    simpa using drop_append_le xs z a (by simpa using h)

theorem take_append_le : ∀ (l z : List Nat) (a : Nat), a ≤ l.length →
    (l ++ z).take a = l.take a
  | _, _, 0, _ => by simp
  | [], _, a + 1, h => by simp at h
  | x :: xs, z, a + 1, h => by
    simpa using take_append_le xs z a (by simpa using h)

theorem pySlice_length {l : List Nat} {a B : Nat} (h : a + B ≤ l.length) :
    (pySlice l a (a + B)).length = B := by
  simp only [pySlice, List.length_take, List.length_drop]
  omega

theorem pySlice_self (l : List Nat) (a : Nat) : pySlice l a a = [] := by
  simp [pySlice]

theorem pySlice_split {l : List Nat} {a b c : Nat} (hab : a ≤ b) (hbc : b ≤ c) :
    pySlice l a c = pySlice l a b ++ pySlice l b c := by
  unfold pySlice
  have hc : c - a = (b - a) + (c - b) := by omega
  rw [hc, take_add', List.drop_drop]
  have : a + (b - a) = b := by omega
  rw [this]

theorem pySlice_append_left {l z : List Nat} {a b : Nat} (h : b ≤ l.length) :
    pySlice (l ++ z) a b = pySlice l a b := by
  unfold pySlice
  rcases Nat.le_total a l.length with ha | ha
  · rw [drop_append_le l z a ha, take_append_le _ _ _ (by simp; omega)]
  · have hb : b - a = 0 := by omega
    simp [hb]

theorem pySlice_zero (l : List Nat) (b : Nat) : pySlice l 0 b = l.take b := by
  simp [pySlice]

theorem drop_cons_succ {l r : List Nat} {pos a : Nat} (h : l.drop pos = a :: r) :
    l.drop (pos + 1) = r := by
  have h1 : List.drop 1 (List.drop pos l) = List.drop (pos + 1) l := List.drop_drop 1 pos l
  rw [← h1, h]
  rfl

theorem getD_of_drop : ∀ (l : List Nat) (pos : Nat) {a : Nat} {r : List Nat},
    l.drop pos = a :: r → l.getD pos 0 = a
  | l, 0, a, r, h => by simp only [List.drop_zero] at h; simp [h]
  | [], pos + 1, a, r, h => by simp at h
  | x :: xs, pos + 1, a, r, h => by
    simpa [List.getD] using getD_of_drop xs pos (by simpa using h)

theorem length_of_drop {l : List Nat} {pos a : Nat} {r : List Nat}
    (h : l.drop pos = a :: r) : l.length = pos + 1 + r.length := by
  have h1 : (l.drop pos).length = l.length - pos := List.length_drop pos l
  rw [h] at h1
  simp at h1
  omega

theorem pos_lt_of_drop {l : List Nat} {pos a : Nat} {r : List Nat}
    (h : l.drop pos = a :: r) : pos < l.length := by
  have := length_of_drop h; omega

theorem pySlice_of_drop {l : List Nat} {pos : Nat} {r : List Nat}
    (h : l.drop pos = r) (a b : Nat) :
    pySlice l (pos + a) (pos + b) = (r.drop a).take (b - a) := by
  unfold pySlice
  rw [show pos + a = pos + a from rfl, ← List.drop_drop a pos l, h]
  congr 1
  omega

theorem drop_add_of_drop {l : List Nat} {pos : Nat} {r : List Nat}
    (h : l.drop pos = r) (a : Nat) : l.drop (pos + a) = r.drop a := by
  rw [← List.drop_drop a pos l, h]


/-! ## `applyLoop` step lemmas -/

theorem applyTerm {patch ref : List Nat} {B pos : Nat} {out : List Nat} {w fuel : Nat}
    (h : patch.length ≤ pos) :
    applyLoop patch ref B pos out w fuel = some (out, w) := by
  cases fuel <;> rw [applyLoop, if_neg (by omega)]

theorem applyStep_zero {patch ref : List Nat} {B pos : Nat} {out : List Nat} {w f : Nat}
    {r : List Nat} (h : patch.drop pos = 0x00 :: r) :
    applyLoop patch ref B pos out w (f + 1) = some (out, w) := by
  have hp : pos < patch.length := pos_lt_of_drop h
  have h0 : patch.getD pos 0 = 0x00 := getD_of_drop patch pos h
  rw [applyLoop, if_pos hp]
  dsimp only
  rw [h0]
  norm_num

theorem applyStep_C {patch ref : List Nat} {B pos : Nat} {out : List Nat} {w f : Nat}
    {r : List Nat} (h : patch.drop pos = 0x43 :: r) :
    applyLoop patch ref B pos out w (f + 1) =
      applyLoop patch ref B (pos + 1) (out ++ pySlice ref w (w + B)) (w + B) f := by
  have hp : pos < patch.length := pos_lt_of_drop h
  have h0 : patch.getD pos 0 = 0x43 := getD_of_drop patch pos h
  rw [applyLoop, if_pos hp]
  dsimp only
  rw [h0]
  norm_num

theorem applyStep_D {patch ref : List Nat} {B pos : Nat} {out : List Nat} {w f c : Nat}
    {r : List Nat} (h : patch.drop pos = 0x44 :: c :: r) :
    applyLoop patch ref B pos out w (f + 1) =
      applyLoop patch ref B (pos + 2) (dLoop ref B (c + 1) (out, w)).1
        (dLoop ref B (c + 1) (out, w)).2 f := by
  have hp : pos < patch.length := pos_lt_of_drop h
  have h0 : patch.getD pos 0 = 0x44 := getD_of_drop patch pos h
  have h1 : patch.getD (pos + 1) 0 = c := getD_of_drop patch (pos + 1) (drop_cons_succ h)
  have hlen : ¬ patch.length < pos + 2 := by
    have := length_of_drop (drop_cons_succ h); omega
  rw [applyLoop, if_pos hp]
  dsimp only
  rw [h0, h1, if_neg hlen]
  norm_num

theorem applyTrunc_D {patch ref : List Nat} {B pos : Nat} {out : List Nat} {w fuel : Nat}
    (h : patch.drop pos = [0x44]) :
    applyLoop patch ref B pos out w fuel = none := by
  have hp : pos < patch.length := pos_lt_of_drop h
  have h0 : patch.getD pos 0 = 0x44 := getD_of_drop patch pos h
  have hlen : patch.length < pos + 2 := by have := length_of_drop h; simp at this; omega
  cases fuel with
  | zero => rw [applyLoop, if_pos hp]
  | succ f =>
    rw [applyLoop, if_pos hp]
    dsimp only
    rw [h0, if_pos hlen]
    norm_num

theorem applyStep_R {patch ref : List Nat} {B pos : Nat} {out : List Nat} {w f : Nat}
    {p3 r : List Nat} (h : patch.drop pos = 0x52 :: (p3 ++ r)) (hp3 : p3.length = 3) :
    applyLoop patch ref B pos out w (f + 1) =
      applyLoop patch ref B (pos + 4)
        (out ++ pySlice ref (fromBytesBE p3) (fromBytesBE p3 + B)) (w + B) f := by
  have hp : pos < patch.length := pos_lt_of_drop h
  have h0 : patch.getD pos 0 = 0x52 := getD_of_drop patch pos h
  have hlen : ¬ patch.length < pos + 4 := by
    have := length_of_drop h; simp [hp3] at this; omega
  have hslice : pySlice patch (pos + 1) (pos + 4) = p3 := by
    have h2 := pySlice_of_drop h 1 4
    simpa [List.take_left' hp3] using h2
  rw [applyLoop, if_pos hp]
  dsimp only
  rw [h0, if_neg hlen, hslice]
  norm_num

theorem applyTrunc_R {patch ref : List Nat} {B pos : Nat} {out : List Nat} {w fuel : Nat}
    {r : List Nat} (h : patch.drop pos = 0x52 :: r) (hr : r.length < 3) :
    applyLoop patch ref B pos out w fuel = none := by
  have hp : pos < patch.length := pos_lt_of_drop h
  have h0 : patch.getD pos 0 = 0x52 := getD_of_drop patch pos h
  have hlen : patch.length < pos + 4 := by have := length_of_drop h; simp at this; omega
  cases fuel with
  | zero => rw [applyLoop, if_pos hp]
  | succ f =>
    rw [applyLoop, if_pos hp]
    dsimp only
    rw [h0, if_pos hlen]
    norm_num

theorem applyStep_I {patch ref : List Nat} {B pos : Nat} {out : List Nat} {w f : Nat}
    {blk r : List Nat} (h : patch.drop pos = 0x49 :: (blk ++ r)) (hblk : blk.length = B) :
    applyLoop patch ref B pos out w (f + 1) =
      applyLoop patch ref B (pos + 1 + B) (out ++ blk) (w + B) f := by
  have hp : pos < patch.length := pos_lt_of_drop h
  have h0 : patch.getD pos 0 = 0x49 := getD_of_drop patch pos h
  have hlen : ¬ patch.length < pos + 1 + B := by
    have := length_of_drop h; simp [hblk] at this; omega
  have hslice : pySlice patch (pos + 1) (pos + 1 + B) = blk := by
    have h2 := pySlice_of_drop h 1 (1 + B)
    rw [show pos + (1 + B) = pos + 1 + B from by omega] at h2
    simp only [List.drop_succ_cons, List.drop_zero] at h2
    rw [show 1 + B - 1 = B from by omega] at h2
    rw [h2, List.take_left' hblk]
  rw [applyLoop, if_pos hp]
  dsimp only
  rw [h0, if_neg hlen, hslice]
  norm_num

theorem applyTrunc_I {patch ref : List Nat} {B pos : Nat} {out : List Nat} {w fuel : Nat}
    {r : List Nat} (h : patch.drop pos = 0x49 :: r) (hr : r.length < B) :
    applyLoop patch ref B pos out w fuel = none := by
  have hp : pos < patch.length := pos_lt_of_drop h
  have h0 : patch.getD pos 0 = 0x49 := getD_of_drop patch pos h
  have hlen : patch.length < pos + 1 + B := by have := length_of_drop h; simp at this; omega
  cases fuel with
  | zero => rw [applyLoop, if_pos hp]
  | succ f =>
    rw [applyLoop, if_pos hp]
    dsimp only
    rw [h0, if_pos hlen]
    norm_num

theorem applyStep_X {patch ref : List Nat} {B pos : Nat} {out : List Nat} {w f n : Nat}
    {payload r d : List Nat} (h : patch.drop pos = 0x58 :: n :: (payload ++ r))
    (hpay : payload.length = n) (hrd : rle_decode payload = some d) :
    applyLoop patch ref B pos out w (f + 1) =
      applyLoop patch ref B (pos + 2 + n)
        (out ++ List.zipWith Nat.xor d (pySlice ref w (w + B))) (w + B) f := by
  have hp : pos < patch.length := pos_lt_of_drop h
  have h0 : patch.getD pos 0 = 0x58 := getD_of_drop patch pos h
  have h1 : patch.getD (pos + 1) 0 = n := getD_of_drop patch (pos + 1) (drop_cons_succ h)
  have hlen2 : ¬ patch.length < pos + 2 := by have := length_of_drop h; simp at this; omega
  have hlen3 : ¬ patch.length < pos + 2 + n := by
    have := length_of_drop (drop_cons_succ h); simp [hpay] at this; omega
  have hslice : pySlice patch (pos + 2) (pos + 2 + n) = payload := by
    have h2 := pySlice_of_drop h 2 (2 + n)
    rw [show pos + (2 + n) = pos + 2 + n from by omega] at h2
    simp only [List.drop_succ_cons, List.drop_zero] at h2
    rw [show 2 + n - 2 = n from by omega] at h2
    rw [h2, List.take_left' hpay]
  rw [applyLoop, if_pos hp]
  dsimp only
  rw [h0, h1]
  simp only [if_neg hlen2, if_neg hlen3]
  rw [hslice, hrd]
  norm_num

theorem applyNone_X {patch ref : List Nat} {B pos : Nat} {out : List Nat} {w fuel n : Nat}
    {payload r : List Nat} (h : patch.drop pos = 0x58 :: n :: (payload ++ r))
    (hpay : payload.length = n) (hrd : rle_decode payload = none) :
    applyLoop patch ref B pos out w fuel = none := by
  have hp : pos < patch.length := pos_lt_of_drop h
  have h0 : patch.getD pos 0 = 0x58 := getD_of_drop patch pos h
  have h1 : patch.getD (pos + 1) 0 = n := getD_of_drop patch (pos + 1) (drop_cons_succ h)
  have hlen2 : ¬ patch.length < pos + 2 := by have := length_of_drop h; simp at this; omega
  have hlen3 : ¬ patch.length < pos + 2 + n := by
    have := length_of_drop (drop_cons_succ h); simp [hpay] at this; omega
  have hslice : pySlice patch (pos + 2) (pos + 2 + n) = payload := by
    have h2 := pySlice_of_drop h 2 (2 + n)
    rw [show pos + (2 + n) = pos + 2 + n from by omega] at h2
    simp only [List.drop_succ_cons, List.drop_zero] at h2
    rw [show 2 + n - 2 = n from by omega] at h2
    rw [h2, List.take_left' hpay]
  cases fuel with
  | zero => rw [applyLoop, if_pos hp]
  | succ f =>
    rw [applyLoop, if_pos hp]
    dsimp only
    rw [h0, h1]
    simp only [if_neg hlen2, if_neg hlen3]
    rw [hslice, hrd]
    norm_num

theorem applyTrunc_X1 {patch ref : List Nat} {B pos : Nat} {out : List Nat} {w fuel : Nat}
    (h : patch.drop pos = [0x58]) :
    applyLoop patch ref B pos out w fuel = none := by
  have hp : pos < patch.length := pos_lt_of_drop h
  have h0 : patch.getD pos 0 = 0x58 := getD_of_drop patch pos h
  have hlen : patch.length < pos + 2 := by have := length_of_drop h; simp at this; omega
  cases fuel with
  | zero => rw [applyLoop, if_pos hp]
  | succ f =>
    rw [applyLoop, if_pos hp]
    dsimp only
    rw [h0]
    simp only [if_pos hlen]
    norm_num

theorem applyTrunc_X2 {patch ref : List Nat} {B pos : Nat} {out : List Nat} {w fuel n : Nat}
    {r : List Nat} (h : patch.drop pos = 0x58 :: n :: r) (hr : r.length < n) :
    applyLoop patch ref B pos out w fuel = none := by
  have hp : pos < patch.length := pos_lt_of_drop h
  have h0 : patch.getD pos 0 = 0x58 := getD_of_drop patch pos h
  have h1 : patch.getD (pos + 1) 0 = n := getD_of_drop patch (pos + 1) (drop_cons_succ h)
  have hlen2 : ¬ patch.length < pos + 2 := by have := length_of_drop h; simp at this; omega
  have hlen3 : patch.length < pos + 2 + n := by
    have := length_of_drop (drop_cons_succ h); simp at this; omega
  cases fuel with
  | zero => rw [applyLoop, if_pos hp]
  | succ f =>
    rw [applyLoop, if_pos hp]
    dsimp only
    rw [h0, h1]
    simp only [if_neg hlen2, if_pos hlen3]
    norm_num

theorem applyStep_P {patch ref : List Nat} {B pos : Nat} {out : List Nat} {w f n : Nat}
    {payload r : List Nat} (h : patch.drop pos = 0x50 :: n :: (payload ++ r))
    (hpay : payload.length = n) :
    applyLoop patch ref B pos out w (f + 1) =
      applyLoop patch ref B (pos + 2 + n) (out ++ payload) w f := by
  have hp : pos < patch.length := pos_lt_of_drop h
  have h0 : patch.getD pos 0 = 0x50 := getD_of_drop patch pos h
  have h1 : patch.getD (pos + 1) 0 = n := getD_of_drop patch (pos + 1) (drop_cons_succ h)
  have hlen2 : ¬ patch.length < pos + 2 := by have := length_of_drop h; simp at this; omega
  have hlen3 : ¬ patch.length < pos + 2 + n := by
    have := length_of_drop (drop_cons_succ h); simp [hpay] at this; omega
  have hslice : pySlice patch (pos + 2) (pos + 2 + n) = payload := by
    have h2 := pySlice_of_drop h 2 (2 + n)
    rw [show pos + (2 + n) = pos + 2 + n from by omega] at h2
    simp only [List.drop_succ_cons, List.drop_zero] at h2
    rw [show 2 + n - 2 = n from by omega] at h2
    rw [h2, List.take_left' hpay]
  rw [applyLoop, if_pos hp]
  dsimp only
  rw [h0, h1]
  simp only [if_neg hlen2, if_neg hlen3]
  rw [hslice]
  norm_num

theorem applyTrunc_P1 {patch ref : List Nat} {B pos : Nat} {out : List Nat} {w fuel : Nat}
    (h : patch.drop pos = [0x50]) :
    applyLoop patch ref B pos out w fuel = none := by
  have hp : pos < patch.length := pos_lt_of_drop h
  have h0 : patch.getD pos 0 = 0x50 := getD_of_drop patch pos h
  have hlen : patch.length < pos + 2 := by have := length_of_drop h; simp at this; omega
  cases fuel with
  | zero => rw [applyLoop, if_pos hp]
  | succ f =>
    rw [applyLoop, if_pos hp]
    dsimp only
    rw [h0]
    simp only [if_pos hlen]
    norm_num

theorem applyTrunc_P2 {patch ref : List Nat} {B pos : Nat} {out : List Nat} {w fuel n : Nat}
    {r : List Nat} (h : patch.drop pos = 0x50 :: n :: r) (hr : r.length < n) :
    applyLoop patch ref B pos out w fuel = none := by
  have hp : pos < patch.length := pos_lt_of_drop h
  have h0 : patch.getD pos 0 = 0x50 := getD_of_drop patch pos h
  have h1 : patch.getD (pos + 1) 0 = n := getD_of_drop patch (pos + 1) (drop_cons_succ h)
  have hlen2 : ¬ patch.length < pos + 2 := by have := length_of_drop h; simp at this; omega
  have hlen3 : patch.length < pos + 2 + n := by
    have := length_of_drop (drop_cons_succ h); simp at this; omega
  cases fuel with
  | zero => rw [applyLoop, if_pos hp]
  | succ f =>
    rw [applyLoop, if_pos hp]
    dsimp only
    rw [h0, h1]
    simp only [if_neg hlen2, if_pos hlen3]
    norm_num

theorem applyUnknown {patch ref : List Nat} {B pos : Nat} {out : List Nat} {w fuel t : Nat}
    {r : List Nat} (h : patch.drop pos = t :: r) (h1 : t ≠ 0x00) (h2 : t ≠ 0x43)
    (h3 : t ≠ 0x44) (h4 : t ≠ 0x52) (h5 : t ≠ 0x49) (h6 : t ≠ 0x58) (h7 : t ≠ 0x50) :
    applyLoop patch ref B pos out w fuel = none := by
  have hp : pos < patch.length := pos_lt_of_drop h
  have h0 : patch.getD pos 0 = t := getD_of_drop patch pos h
  cases fuel with
  | zero => rw [applyLoop, if_pos hp]
  | succ f =>
    rw [applyLoop, if_pos hp]
    dsimp only
    rw [h0, if_neg h1, if_neg h2, if_neg h3, if_neg h4, if_neg h5, if_neg h6, if_neg h7]

theorem applyLoop_fuel : ∀ (f1 : Nat) {patch ref : List Nat} {B : Nat} (f2 pos : Nat)
    (out : List Nat) (w : Nat),
    patch.length - pos ≤ f1 → patch.length - pos ≤ f2 →
    applyLoop patch ref B pos out w f1 = applyLoop patch ref B pos out w f2 := by
  intro f1
  induction f1 with
  | zero =>
    intro patch ref B f2 pos out w h1 h2
    have hp : patch.length ≤ pos := by omega
    rw [applyTerm hp, applyTerm hp]
  | succ f1 ih =>
    intro patch ref B f2 pos out w h1 h2
    rcases hd : patch.drop pos with _ | ⟨t, r⟩
    · have hp : patch.length ≤ pos := List.drop_eq_nil_iff.mp hd
      rw [applyTerm hp, applyTerm hp]
    · have hp : pos < patch.length := pos_lt_of_drop hd
      obtain ⟨g2, rfl⟩ : ∃ g, f2 = g + 1 := ⟨f2 - 1, by omega⟩
      by_cases h00 : t = 0x00
      · subst h00; rw [applyStep_zero hd, applyStep_zero hd]
      by_cases h43 : t = 0x43
      · subst h43
        rw [applyStep_C hd, applyStep_C hd]
        apply ih <;> omega
      by_cases h44 : t = 0x44
      · subst h44
        rcases r with _ | ⟨c, r2⟩
        · rw [applyTrunc_D hd, applyTrunc_D hd]
        · rw [applyStep_D hd, applyStep_D hd]
          apply ih <;> omega
      by_cases h52 : t = 0x52
      · subst h52
        by_cases hr3 : r.length < 3
        · rw [applyTrunc_R hd hr3, applyTrunc_R hd hr3]
        · have hlen3 : (r.take 3).length = 3 := by rw [List.length_take]; omega
          rw [(List.take_append_drop 3 r).symm] at hd
          rw [applyStep_R hd hlen3, applyStep_R hd hlen3]
          apply ih <;> omega
      by_cases h49 : t = 0x49
      · subst h49
        by_cases hrB : r.length < B
        · rw [applyTrunc_I hd hrB, applyTrunc_I hd hrB]
        · have hlenB : (r.take B).length = B := by rw [List.length_take]; omega
          rw [(List.take_append_drop B r).symm] at hd
          rw [applyStep_I hd hlenB, applyStep_I hd hlenB]
          apply ih <;> omega
      by_cases h58 : t = 0x58
      · subst h58
        rcases r with _ | ⟨n, r2⟩
        · rw [applyTrunc_X1 hd, applyTrunc_X1 hd]
        · by_cases hrn : r2.length < n
          · rw [applyTrunc_X2 hd hrn, applyTrunc_X2 hd hrn]
          · have hlenn : (r2.take n).length = n := by rw [List.length_take]; omega
            rw [(List.take_append_drop n r2).symm] at hd
            rcases hrd : rle_decode (r2.take n) with _ | d
            · rw [applyNone_X hd hlenn hrd, applyNone_X hd hlenn hrd]
            · rw [applyStep_X hd hlenn hrd, applyStep_X hd hlenn hrd]
              apply ih <;> omega
      by_cases h50 : t = 0x50
      · subst h50
        rcases r with _ | ⟨n, r2⟩
        · rw [applyTrunc_P1 hd, applyTrunc_P1 hd]
        · by_cases hrn : r2.length < n
          · rw [applyTrunc_P2 hd hrn, applyTrunc_P2 hd hrn]
          · have hlenn : (r2.take n).length = n := by rw [List.length_take]; omega
            rw [(List.take_append_drop n r2).symm] at hd
            rw [applyStep_P hd hlenn, applyStep_P hd hlenn]
            apply ih <;> omega
      · rw [applyUnknown hd h00 h43 h44 h52 h49 h58 h50,
          applyUnknown hd h00 h43 h44 h52 h49 h58 h50]

/-! ## RLE lemmas -/

theorem runLength_spec : ∀ (f : Nat) (x : List Nat) (i b rl0 : Nat),
    x.length - (i + rl0) ≤ f →
    rl0 ≤ runLength x i b rl0 f ∧
    (∀ k, rl0 ≤ k → k < runLength x i b rl0 f →
      i + k < x.length ∧ x.getD (i + k) 0 = b) ∧
    (rl0 ≤ 129 → runLength x i b rl0 f ≤ 129) ∧
    ¬(i + runLength x i b rl0 f < x.length ∧
      x.getD (i + runLength x i b rl0 f) 0 = b ∧ runLength x i b rl0 f < 129) := by
  intro f
  induction f with
  | zero =>
    intro x i b rl0 h
    rw [runLength]
    refine ⟨le_refl _, fun k hk1 hk2 => absurd hk2 (by omega), fun h9 => h9, ?_⟩
    rintro ⟨hlt, -, -⟩
    omega
  | succ f ih =>
    intro x i b rl0 h
    rw [runLength]
    by_cases hc : i + rl0 < x.length ∧ x.getD (i + rl0) 0 = b ∧ rl0 < 129
    · rw [if_pos hc]
      obtain ⟨ha, hb, hcc, hd⟩ := ih x i b (rl0 + 1) (by omega)
      refine ⟨by omega, ?_, ?_, hd⟩
      · intro k hk1 hk2
        rcases eq_or_lt_of_le hk1 with rfl | hk1'
        · exact ⟨hc.1, hc.2.1⟩
        · exact hb k (by omega) hk2
      · intro h129
        exact hcc (by omega)
    · rw [if_neg hc]
      exact ⟨le_refl _, fun k hk1 hk2 => absurd hk2 (by omega), fun h9 => h9, hc⟩

theorem litScan_spec : ∀ (f : Nat) (x : List Nat) (i ll0 : Nat),
    ll0 ≤ (litScan x i ll0 f).1 ∧ (litScan x i ll0 f).1 ≤ max ll0 128 ∧
    (litScan x i ll0 f).2 = i + ((litScan x i ll0 f).1 - ll0) ∧
    (i ≤ x.length → (litScan x i ll0 f).2 ≤ x.length) := by
  intro f
  induction f with
  | zero =>
    intro x i ll0
    rw [litScan]
    split_ifs <;> exact ⟨le_refl _, le_max_left _ _, by omega, fun h => h⟩
  | succ f ih =>
    intro x i ll0
    rw [litScan]
    by_cases h1 : ll0 < 128 ∧ i < x.length
    · rw [if_pos h1]
      by_cases h2 : i + 1 < x.length ∧ x.getD i 0 = x.getD (i + 1) 0
      · rw [if_pos h2]
        exact ⟨le_refl _, le_max_left _ _, by omega, fun h => h⟩
      · rw [if_neg h2]
        obtain ⟨ha, hb, hcc, hd⟩ := ih x (i + 1) (ll0 + 1)
        refine ⟨by omega, by omega, by omega, fun _ => hd (by omega)⟩
    · rw [if_neg h1]
      exact ⟨le_refl _, le_max_left _ _, by omega, fun h => h⟩

theorem encUnfold_rep {x : List Nat} {i f : Nat} (hi : i < x.length)
    (h2 : 2 ≤ runLength x i (x.getD i 0) 1 x.length) :
    rleEncodeLoop x i (f + 1) =
      (128 ||| (runLength x i (x.getD i 0) 1 x.length - 2)) :: x.getD i 0 ::
        rleEncodeLoop x (i + runLength x i (x.getD i 0) 1 x.length) f := by
  rw [rleEncodeLoop, if_pos hi]
  dsimp only
  rw [if_pos h2]

theorem encUnfold_lit {x : List Nat} {i f : Nat} (hi : i < x.length)
    (h2 : ¬ 2 ≤ runLength x i (x.getD i 0) 1 x.length) :
    rleEncodeLoop x i (f + 1) =
      ((litScan x (i + 1) 1 x.length).1 - 1) ::
        (pySlice x i (i + (litScan x (i + 1) 1 x.length).1) ++
          rleEncodeLoop x (litScan x (i + 1) 1 x.length).2 f) := by
  rw [rleEncodeLoop, if_pos hi]
  dsimp only
  rw [if_neg h2]

theorem encTerm {x : List Nat} {i f : Nat} (hi : x.length ≤ i) :
    rleEncodeLoop x i f = [] := by
  cases f <;> rw [rleEncodeLoop, if_neg (by omega)]

theorem rleDecTerm {E : List Nat} {i f : Nat} (hi : E.length ≤ i) :
    rleDecodeLoop E i f = some [] := by
  cases f <;> rw [rleDecodeLoop, if_neg (by omega)]

theorem rleDecStep_rep {E : List Nat} {i f c b : Nat} {r : List Nat}
    (hd : E.drop i = c :: b :: r) (hc : c &&& 128 ≠ 0) :
    rleDecodeLoop E i (f + 1) =
      (rleDecodeLoop E (i + 2) f).map
        (fun t => List.replicate ((c &&& 127) + 2) b ++ t) := by
  have hp : i < E.length := pos_lt_of_drop hd
  have h0 : E.getD i 0 = c := getD_of_drop E i hd
  have h1 : E.getD (i + 1) 0 = b := getD_of_drop E (i + 1) (drop_cons_succ hd)
  have hp1 : i + 1 < E.length := by
    have := length_of_drop (drop_cons_succ hd); omega
  rw [rleDecodeLoop, if_pos hp]
  dsimp only
  rw [h0, h1, if_pos hc, if_pos hp1]

theorem rleDecNone_rep {E : List Nat} {i f c : Nat}
    (hd : E.drop i = [c]) (hc : c &&& 128 ≠ 0) :
    rleDecodeLoop E i f = none := by
  have hp : i < E.length := pos_lt_of_drop hd
  have h0 : E.getD i 0 = c := getD_of_drop E i hd
  have hp1 : ¬ i + 1 < E.length := by
    have := length_of_drop hd; simp at this; omega
  cases f with
  | zero => rw [rleDecodeLoop, if_pos hp]
  | succ f =>
    rw [rleDecodeLoop, if_pos hp]
    dsimp only
    rw [h0, if_pos hc, if_neg hp1]

theorem rleDecStep_lit {E : List Nat} {i f c : Nat} {r : List Nat}
    (hd : E.drop i = c :: r) (hc : ¬ c &&& 128 ≠ 0) :
    rleDecodeLoop E i (f + 1) =
      (rleDecodeLoop E (i + 1 + ((c &&& 127) + 1)) f).map
        (fun t => r.take ((c &&& 127) + 1) ++ t) := by
  have hp : i < E.length := pos_lt_of_drop hd
  have h0 : E.getD i 0 = c := getD_of_drop E i hd
  have hslice : pySlice E (i + 1) (i + 1 + ((c &&& 127) + 1)) = r.take ((c &&& 127) + 1) := by
    have h2 := pySlice_of_drop hd 1 (1 + ((c &&& 127) + 1))
    rw [show i + (1 + ((c &&& 127) + 1)) = i + 1 + ((c &&& 127) + 1) from by omega] at h2
    simp only [List.drop_succ_cons, List.drop_zero] at h2
    rw [show 1 + ((c &&& 127) + 1) - 1 = (c &&& 127) + 1 from by omega] at h2
    exact h2
  rw [rleDecodeLoop, if_pos hp]
  dsimp only
  rw [h0, if_neg hc, hslice]

theorem lor_land_128 : ∀ m, m < 128 → (128 ||| m) &&& 128 ≠ 0 ∧ (128 ||| m) &&& 127 = m := by
  decide

theorem land_small : ∀ c, c < 128 → c &&& 128 = 0 ∧ c &&& 127 = c := by
  decide

theorem slice_replicate {x : List Nat} {i m b : Nat} (hm : i + m ≤ x.length)
    (hall : ∀ k, k < m → x.getD (i + k) 0 = b) :
    (x.drop i).take m = List.replicate m b := by
  apply List.ext_getElem
  · simp
    omega
  · intro k h1 h2
    simp only [List.getElem_take, List.getElem_drop, List.getElem_replicate]
    have hk : k < m := by simp at h1; omega
    have hb := hall k hk
    rw [List.getD_eq_getElem?_getD, List.getElem?_eq_getElem (by omega)] at hb
    simpa using hb

theorem rle_encdec : ∀ (fx : Nat) (x E : List Nat) (i iE fD : Nat),
    x.length - i ≤ fx →
    E.drop iE = rleEncodeLoop x i fx →
    E.length - iE ≤ fD →
    rleDecodeLoop E iE fD = some (x.drop i) := by
  intro fx
  induction fx with
  | zero =>
    intro x E i iE fD h1 h2 h3
    rw [encTerm (by omega)] at h2
    rw [rleDecTerm (List.drop_eq_nil_iff.mp h2), List.drop_eq_nil_of_le (by omega)]
  | succ fx ih =>
    intro x E i iE fD h1 h2 h3
    by_cases hi : i < x.length
    case neg =>
      rw [encTerm (by omega)] at h2
      rw [rleDecTerm (List.drop_eq_nil_iff.mp h2), List.drop_eq_nil_of_le (by omega)]
    case pos =>
      obtain ⟨hrl1, hrlall, hrl129, hrlterm⟩ :=
        runLength_spec x.length x i (x.getD i 0) 1 (by omega)
      set rl := runLength x i (x.getD i 0) 1 x.length with hrldef
      by_cases h2rl : 2 ≤ rl
      · -- repeat record
        rw [encUnfold_rep hi h2rl] at h2
        have hrl128 : rl ≤ 129 := hrl129 (by omega)
        obtain ⟨hb1, hb2⟩ := lor_land_128 (rl - 2) (by omega)
        have hiRl : i + rl ≤ x.length := by
          have := (hrlall (rl - 1) (by omega) (by omega)).1
          omega
        have hrep : (x.drop i).take rl = List.replicate rl (x.getD i 0) := by
          apply slice_replicate hiRl
          intro k hk
          rcases Nat.eq_zero_or_pos k with rfl | hkpos
          · rw [Nat.add_zero]
          · exact (hrlall k (by omega) hk).2
        obtain ⟨g, rfl⟩ : ∃ g, fD = g + 1 := ⟨fD - 1, by have := pos_lt_of_drop h2; omega⟩
        rw [rleDecStep_rep h2 hb1]
        have hrest : E.drop (iE + 2) = rleEncodeLoop x (i + rl) fx :=
          drop_add_of_drop h2 2
        have hlenE := length_of_drop h2
        simp only [List.length_cons] at hlenE
        rw [ih x E (i + rl) (iE + 2) g (by omega) hrest (by omega)]
        simp only [hb2, Option.map_some']
        congr 1
        rw [show rl - 2 + 2 = rl from by omega, ← hrep,
          show x.drop (i + rl) = (x.drop i).drop rl from (List.drop_drop rl i x).symm,
          List.take_append_drop]
      · -- literal record
        rw [encUnfold_lit hi h2rl] at h2
        obtain ⟨hL1, hL128, hI2, hI2len⟩ := litScan_spec x.length x (i + 1) 1
        set L := (litScan x (i + 1) 1 x.length).1 with hLdef
        set i2 := (litScan x (i + 1) 1 x.length).2 with hi2def
        have hLle : L ≤ 128 := by omega
        have hi2 : i2 = i + L := by omega
        have hi2len : i2 ≤ x.length := hI2len (by omega)
        obtain ⟨hc0, hc127⟩ := land_small (L - 1) (by omega)
        have hpay : (pySlice x i (i + L)).length = L := pySlice_length (by omega)
        obtain ⟨g, rfl⟩ : ∃ g, fD = g + 1 := ⟨fD - 1, by have := pos_lt_of_drop h2; omega⟩
        rw [rleDecStep_lit h2 (by simp [hc0])]
        simp only [hc127, show L - 1 + 1 = L from by omega, List.take_left' hpay]
        have hrest : E.drop (iE + 1 + L) = rleEncodeLoop x i2 fx := by
          have hdd := drop_add_of_drop h2 (1 + L)
          rw [show iE + (1 + L) = iE + 1 + L from by omega,
            show 1 + L = L + 1 from by omega] at hdd
          rw [List.drop_succ_cons] at hdd
          rw [hdd, List.drop_left' hpay]
        have hlenE := length_of_drop h2
        simp only [List.length_append, hpay] at hlenE
        rw [ih x E i2 (iE + 1 + L) g (by omega) hrest (by omega)]
        simp only [Option.map_some']
        congr 1
        rw [hi2, show pySlice x i (i + L) = (x.drop i).take L from by
            simp [pySlice, Nat.add_sub_cancel_left],
          show x.drop (i + L) = (x.drop i).drop L from (List.drop_drop L i x).symm,
          List.take_append_drop]

/-- Core RLE round-trip, phrased on the wrapper functions. -/
theorem rle_round_trip_aux (x : List Nat) : rle_decode (rle_encode x) = some x := by
  unfold rle_decode rle_encode
  have h0 : (rleEncodeLoop x 0 x.length).drop 0 = rleEncodeLoop x 0 x.length :=
    List.drop_zero _
  have := rle_encdec x.length x (rleEncodeLoop x 0 x.length) 0 0
    (rleEncodeLoop x 0 x.length).length (by omega) h0 (by omega)
  simpa using this

/-! ## Dictionary lemmas -/

theorem assocFind_append_some {key : List Nat} {lk l2 : List (List Nat × Nat)} {v : Nat}
    (h : assocFind key lk = some v) : assocFind key (lk ++ l2) = some v := by
  induction lk with
  | nil => simp [assocFind] at h
  | cons kv rest ih =>
    rw [List.cons_append, assocFind]
    rw [assocFind] at h
    by_cases hk : kv.1 = key
    · rw [if_pos hk] at h ⊢; exact h
    · rw [if_neg hk] at h ⊢; exact ih h

theorem assocFind_append_none {key : List Nat} {lk : List (List Nat × Nat)}
    (h : assocFind key lk = none) (j : Nat) :
    assocFind key (lk ++ [(key, j)]) = some j := by
  induction lk with
  | nil => simp [assocFind]
  | cons kv rest ih =>
    rw [List.cons_append, assocFind]
    rw [assocFind] at h
    by_cases hk : kv.1 = key
    · rw [if_pos hk] at h; exact absurd h (by simp)
    · rw [if_neg hk] at h ⊢; exact ih h

theorem assocFind_append_ne {key k2 : List Nat} {lk : List (List Nat × Nat)}
    (hne : k2 ≠ key) (j : Nat) :
    assocFind key (lk ++ [(k2, j)]) = assocFind key lk := by
  induction lk with
  | nil => simp [assocFind, hne]
  | cons kv rest ih =>
    rw [List.cons_append, assocFind]
    conv_rhs => rw [assocFind]
    by_cases hk : kv.1 = key
    · rw [if_pos hk, if_pos hk]
    · rw [if_neg hk, if_neg hk]; exact ih

theorem assocFind_mem : ∀ {lk : List (List Nat × Nat)} {key : List Nat} {v : Nat},
    assocFind key lk = some v → (key, v) ∈ lk := by
  intro lk
  induction lk with
  | nil => intro key v h; simp [assocFind] at h
  | cons kv rest ih =>
    intro key v h
    rw [assocFind] at h
    by_cases hk : kv.1 = key
    · rw [if_pos hk] at h
      have h2 : kv.2 = v := by simpa using h
      have : kv = (key, v) := by
        rcases kv with ⟨a, b⟩
        simp at hk h2
        simp [hk, h2]
      rw [this]
      exact List.mem_cons_self _ _
    · rw [if_neg hk] at h
      exact List.mem_cons_of_mem _ (ih h)

theorem fold_persist {f2 : List Nat} {B : Nat} : ∀ (js : List Nat)
    (lk : List (List Nat × Nat)) {key : List Nat} {v : Nat},
    assocFind key lk = some v →
    assocFind key (js.foldl (fun lk j => insertKey lk (pySlice f2 j (j + B)) j) lk) = some v := by
  intro js
  induction js with
  | nil => intro lk key v h; simpa using h
  | cons j js ih =>
    intro lk key v h
    rw [List.foldl_cons]
    apply ih
    unfold insertKey
    cases hf : assocFind (pySlice f2 j (j + B)) lk
    · exact assocFind_append_some h
    · exact h

theorem fold_none {f2 : List Nat} {B : Nat} : ∀ (js : List Nat)
    (lk : List (List Nat × Nat)) {key : List Nat},
    assocFind key lk = none →
    assocFind key (js.foldl (fun lk j => insertKey lk (pySlice f2 j (j + B)) j) lk) =
      js.find? (fun j => pySlice f2 j (j + B) == key) := by
  intro js
  induction js with
  | nil => intro lk key h; simpa using h
  | cons j js ih =>
    intro lk key h
    rw [List.foldl_cons]
    by_cases hj : pySlice f2 j (j + B) = key
    · rw [List.find?_cons_of_pos _ (by simp [hj])]
      apply fold_persist
      unfold insertKey
      rw [hj, h]
      exact assocFind_append_none h j
    · rw [List.find?_cons_of_neg _ (by simp [hj])]
      apply ih
      unfold insertKey
      cases hf : assocFind (pySlice f2 j (j + B)) lk
      · rw [assocFind_append_ne hj j]; exact h
      · exact h

theorem fold_sound {f2 : List Nat} {B cap : Nat} : ∀ (js : List Nat)
    (lk : List (List Nat × Nat)),
    (∀ j ∈ js, j + B ≤ cap) →
    (∀ kv ∈ lk, kv.1 = pySlice f2 kv.2 (kv.2 + B) ∧ kv.2 + B ≤ cap) →
    ∀ kv ∈ js.foldl (fun lk j => insertKey lk (pySlice f2 j (j + B)) j) lk,
      kv.1 = pySlice f2 kv.2 (kv.2 + B) ∧ kv.2 + B ≤ cap := by
  intro js
  induction js with
  | nil => intro lk hjs hlk kv hkv; exact hlk kv (by simpa using hkv)
  | cons j js ih =>
    intro lk hjs hlk kv hkv
    rw [List.foldl_cons] at hkv
    refine ih _ (fun a ha => hjs a (by simp [ha])) ?_ kv hkv
    intro kv2 hkv2
    unfold insertKey at hkv2
    cases hf : assocFind (pySlice f2 j (j + B)) lk <;> rw [hf] at hkv2
    · rcases List.mem_append.mp hkv2 with h1 | h2
      · exact hlk kv2 h1
      · have : kv2 = (pySlice f2 j (j + B), j) := by simpa using h2
        rw [this]
        exact ⟨rfl, hjs j (by simp)⟩
    · exact hlk kv2 hkv2

theorem mem_alignedOffsets {cap B j : Nat} :
    j ∈ alignedOffsets cap B ↔ j % B = 0 ∧ j + B ≤ cap := by
  unfold alignedOffsets
  by_cases hB : B ≤ cap
  · rw [if_pos hB]
    rw [List.mem_filter, List.mem_range]
    constructor
    · intro ⟨h1, h2⟩
      exact ⟨by simpa using h2, by omega⟩
    · intro ⟨h1, h2⟩
      exact ⟨by omega, by simpa using h1⟩
  · rw [if_neg hB]
    simp
    omega

theorem mem_unalignedOffsets {cap B j : Nat} :
    j ∈ unalignedOffsets cap B ↔ j % B ≠ 0 ∧ j + B ≤ cap := by
  unfold unalignedOffsets
  by_cases hB : B ≤ cap
  · rw [if_pos hB]
    rw [List.mem_filter, List.mem_range]
    constructor
    · intro ⟨h1, h2⟩
      exact ⟨by simpa using h2, by omega⟩
    · intro ⟨h1, h2⟩
      exact ⟨by omega, by simpa using h1⟩
  · rw [if_neg hB]
    simp
    omega

theorem alignedOffsets_sorted (cap B : Nat) : (alignedOffsets cap B).Pairwise (· < ·) := by
  unfold alignedOffsets
  split_ifs
  · exact (List.pairwise_lt_range _).filter _
  · exact List.Pairwise.nil

theorem find?_min : ∀ {l : List Nat} {p : Nat → Bool} {j : Nat}, l.Pairwise (· < ·) →
    l.find? p = some j → p j = true ∧ ∀ i ∈ l, p i = true → j ≤ i := by
  intro l
  induction l with
  | nil => intro p j _ h; simp at h
  | cons a l ih =>
    intro p j hpw h
    rw [List.pairwise_cons] at hpw
    by_cases ha : p a = true
    · rw [List.find?_cons_of_pos _ ha] at h
      have : a = j := by simpa using h
      subst this
      refine ⟨ha, ?_⟩
      intro i hi _
      rcases List.mem_cons.mp hi with rfl | hi2
      · exact le_refl _
      · exact le_of_lt (hpw.1 i hi2)
    · rw [List.find?_cons_of_neg _ (by simpa using ha)] at h
      obtain ⟨h1, h2⟩ := ih hpw.2 h
      refine ⟨h1, ?_⟩
      intro i hi hpi
      rcases List.mem_cons.mp hi with rfl | hi2
      · exact absurd hpi ha
      · exact h2 i hi2 hpi

/-- Any binding in the dictionary is a real window of the reference within the cap. -/
theorem build_lookup_sound {f2 : List Nat} {B : Nat} {key : List Nat} {j : Nat}
    (h : assocFind key (build_lookup f2 B) = some j) :
    key = pySlice f2 j (j + B) ∧ j + B ≤ min f2.length 16777216 := by
  unfold build_lookup at h
  have hmem := assocFind_mem h
  have hs := @fold_sound f2 B (min f2.length 16777216)
    (unalignedOffsets (min f2.length 16777216) B) _
    (fun a ha => (mem_unalignedOffsets.mp ha).2) ?_ _ hmem
  · exact hs
  · intro kv hkv
    exact @fold_sound f2 B (min f2.length 16777216)
      (alignedOffsets (min f2.length 16777216) B) []
      (fun a ha => (mem_alignedOffsets.mp ha).2) (by simp) kv hkv

/-- The dictionary maps a window to its least aligned occurrence whenever one exists. -/
theorem build_lookup_priority {R : List Nat} {B : Nat} {w : List Nat} {a : Nat}
    (haA : a % B = 0) (haIn : a + B ≤ min R.length 16777216)
    (haW : pySlice R a (a + B) = w)
    (haMin : ∀ i, i % B = 0 → i + B ≤ min R.length 16777216 →
      pySlice R i (i + B) = w → a ≤ i) :
    assocFind w (build_lookup R B) = some a := by
  have h1 : assocFind w ((alignedOffsets (min R.length 16777216) B).foldl
      (fun lk j => insertKey lk (pySlice R j (j + B)) j) []) =
      (alignedOffsets (min R.length 16777216) B).find?
        (fun j => pySlice R j (j + B) == w) :=
    fold_none _ _ rfl
  have hmem : a ∈ alignedOffsets (min R.length 16777216) B :=
    mem_alignedOffsets.mpr ⟨haA, haIn⟩
  have hfind : (alignedOffsets (min R.length 16777216) B).find?
      (fun j => pySlice R j (j + B) == w) = some a := by
    cases hf : (alignedOffsets (min R.length 16777216) B).find?
        (fun j => pySlice R j (j + B) == w) with
    | none =>
      exfalso
      rw [List.find?_eq_none] at hf
      exact hf a hmem (by simp [haW])
    | some a2 =>
      obtain ⟨hpa2, hmin2⟩ := find?_min (alignedOffsets_sorted _ B) hf
      have hmemA2 : a2 ∈ alignedOffsets (min R.length 16777216) B :=
        List.mem_of_find?_eq_some hf
      obtain ⟨ha2A, ha2In⟩ := mem_alignedOffsets.mp hmemA2
      have hW2 : pySlice R a2 (a2 + B) = w := by simpa using hpa2
      have hle1 : a ≤ a2 := haMin a2 ha2A ha2In hW2
      have hle2 : a2 ≤ a := hmin2 a hmem (by simp [haW])
      rw [Nat.le_antisymm hle2 hle1]
  unfold build_lookup
  exact fold_persist _ _ (h1.trans hfind)

/-- When the same-offset test fails and the dictionary has the block,
classification emits an `R` record carrying the dictionary offset. -/
theorem classify_reloc {file1 R : List Nat} {B posn a : Nat}
    (hC : ¬ (posn + B ≤ R.length ∧
      pySlice R posn (posn + B) = pySlice file1 posn (posn + B)))
    (hfind : assocFind (pySlice file1 posn (posn + B)) (build_lookup R B) = some a) :
    classifyBlock file1 R B (build_lookup R B) posn = (0x52, bytes3 a) := by
  unfold classifyBlock
  dsimp only
  rw [if_neg hC, hfind]

/-! ## Encoder-side lemmas -/

theorem fromBytes_bytes3 {j : Nat} (h : j < 16777216) : fromBytesBE (bytes3 j) = j := by
  unfold fromBytesBE bytes3
  simp only [List.foldl_cons, List.foldl_nil]
  omega

theorem zipWith_xor_cancel : ∀ (a b : List Nat), a.length ≤ b.length →
    List.zipWith Nat.xor (List.zipWith Nat.xor a b) b = a := by
  intro a
  induction a with
  | nil => intro b h; simp
  | cons x xs ih =>
    intro b h
    cases b with
    | nil => simp at h
    | cons y ys =>
      simp only [List.zipWith_cons_cons]
      rw [ih ys (by simpa using h)]
      congr 1
      exact Nat.xor_cancel_right y x

theorem classify_good {T R : List Nat} {B : Nat} (hB : 0 < B) {idx : Nat}
    (hidx : idx * B + B ≤ T.length) :
    goodRec T R B (classifyBlock T R B (build_lookup R B) (idx * B)) idx := by
  unfold classifyBlock
  dsimp only
  by_cases hC : idx * B + B ≤ R.length ∧
      pySlice R (idx * B) (idx * B + B) = pySlice T (idx * B) (idx * B + B)
  · rw [if_pos hC]
    exact Or.inl ⟨rfl, hC.1, hC.2⟩
  · rw [if_neg hC]
    cases hf : assocFind (pySlice T (idx * B) (idx * B + B)) (build_lookup R B) with
    | some j =>
      obtain ⟨hkey, hcap⟩ := build_lookup_sound hf
      exact Or.inr (Or.inl ⟨j, rfl, by omega, by omega, hkey.symm⟩)
    | none =>
      by_cases hR : idx * B + B ≤ R.length
      · rw [if_pos hR]
        dsimp only
        by_cases hrle : (rle_encode (List.zipWith Nat.xor (pySlice T (idx * B) (idx * B + B))
            (pySlice R (idx * B) (idx * B + B)))).length < B
        · rw [if_pos hrle]
          refine Or.inr (Or.inr (Or.inl ⟨_, rfl, ?_, hR, ?_⟩))
          · rw [List.length_zipWith, pySlice_length hidx, pySlice_length hR]
            simp
          · exact zipWith_xor_cancel _ _ (by rw [pySlice_length hidx, pySlice_length hR])
        · rw [if_neg hrle]
          exact Or.inr (Or.inr (Or.inr ⟨rfl, pySlice_length hidx⟩))
      · rw [if_neg hR]
        exact Or.inr (Or.inr (Or.inr ⟨rfl, pySlice_length hidx⟩))

theorem goods_append_single {T R : List Nat} {B : Nat} :
    ∀ {l : List (Nat × List Nat)} {k : Nat} {r : Nat × List Nat},
    Goods T R B l k → goodRec T R B r (k + l.length) → Goods T R B (l ++ [r]) k := by
  intro l
  induction l with
  | nil => intro k r _ hr; exact Goods.cons (by simpa using hr) (Goods.nil _)
  | cons x xs ih =>
    intro k r hg hr
    cases hg with
    | cons hx hxs =>
      refine Goods.cons hx (ih hxs ?_)
      have : k + 1 + xs.length = k + (x :: xs).length := by simp; omega
      rwa [← this] at hr

theorem goods_map_range {T R : List Nat} {B : Nat} (hB : 0 < B) :
    ∀ (n : Nat), n * B ≤ T.length →
    Goods T R B ((List.range n).map
      (fun idx => classifyBlock T R B (build_lookup R B) (idx * B))) 0 := by
  intro n
  induction n with
  | zero => intro h; exact Goods.nil _
  | succ n ih =>
    intro h
    rw [List.range_succ, List.map_append, List.map_cons, List.map_nil]
    apply goods_append_single (ih (by nlinarith))
    have hlen : (0 : Nat) + ((List.range n).map
        (fun idx => classifyBlock T R B (build_lookup R B) (idx * B))).length = n := by
      simp
    rw [hlen]
    exact classify_good hB (by nlinarith)

theorem goods_drop {T R : List Nat} {B : Nat} :
    ∀ (m : Nat) {l : List (Nat × List Nat)} {k : Nat},
    Goods T R B l k → Goods T R B (l.drop m) (k + m) := by
  intro m
  induction m with
  | zero => intro l k h; simpa using h
  | succ m ih =>
    intro l k h
    cases h with
    | nil => exact Goods.nil _
    | cons hr hrs =>
      rw [List.drop_succ_cons]
      have := ih hrs
      rwa [show k + 1 + m = k + (m + 1) from by omega] at this

theorem leadC_le : ∀ (l : List (Nat × List Nat)), leadC l ≤ l.length := by
  intro l
  induction l with
  | nil => simp [leadC]
  | cons r rs ih =>
    rw [leadC]
    by_cases h : r.1 = 0x43
    · rw [if_pos h]; simpa using ih
    · rw [if_neg h]; simp

theorem leadC_good {T R : List Nat} {B : Nat} :
    ∀ {l : List (Nat × List Nat)} {k : Nat}, Goods T R B l k →
    ∀ m, m < leadC l →
    (k + m) * B + B ≤ R.length ∧
    pySlice R ((k + m) * B) ((k + m) * B + B) =
      pySlice T ((k + m) * B) ((k + m) * B + B) := by
  intro l
  induction l with
  | nil => intro k _ m hm; simp [leadC] at hm
  | cons r rs ih =>
    intro k hg m hm
    cases hg with
    | cons hr hrs =>
      rw [leadC] at hm
      by_cases h43 : r.1 = 0x43
      · rw [if_pos h43] at hm
        cases m with
        | zero =>
          rcases hr with ⟨hre, h1, h2⟩ | ⟨j, hre, -, -, -⟩ | ⟨d, hre, -, -, -⟩ | ⟨hre, -⟩
          · simpa using ⟨h1, h2⟩
          · rw [hre] at h43; simp at h43
          · rw [hre] at h43; simp at h43
          · rw [hre] at h43; simp at h43
        | succ m =>
          have := ih hrs m (by omega)
          rwa [show k + 1 + m = k + (m + 1) from by omega] at this
      · rw [if_neg h43] at hm
        omega

theorem slice_run_merge {T : List Nat} {B k n m : Nat} :
    pySlice T (k * B) (k * B + n * B) ++ pySlice T ((k + n) * B) ((k + n) * B + m * B) =
    pySlice T (k * B) (k * B + (n + m) * B) := by
  have e1 : (k + n) * B = k * B + n * B := by ring
  have e2 : k * B + (n + m) * B = (k + n) * B + m * B := by ring
  rw [e2, e1]
  exact (pySlice_split (by omega) (by omega)).symm

theorem dLoop_good {T R : List Nat} {B : Nat} :
    ∀ (n k : Nat) (out : List Nat),
    (∀ m, m < n → (k + m) * B + B ≤ R.length ∧
      pySlice R ((k + m) * B) ((k + m) * B + B) =
        pySlice T ((k + m) * B) ((k + m) * B + B)) →
    dLoop (R ++ List.replicate B 0) B n (out, k * B) =
      (out ++ pySlice T (k * B) (k * B + n * B), (k + n) * B) := by
  intro n
  induction n with
  | zero =>
    intro k out h
    simp [dLoop, pySlice_self]
  | succ n ih =>
    intro k out h
    rw [dLoop]
    dsimp only
    obtain ⟨hb, hs⟩ := h 0 (by omega)
    simp only [Nat.add_zero] at hb hs
    rw [pySlice_append_left hb, hs]
    have hih := ih (k + 1) (out ++ pySlice T (k * B) (k * B + B)) (fun m hm => by
      have := h (m + 1) (by omega)
      rwa [show k + (m + 1) = k + 1 + m from by omega] at this)
    rw [show (k + 1) * B = k * B + B from by ring] at hih
    rw [hih, List.append_assoc]
    rw [(@pySlice_split T (k * B) (k * B + B) (k * B + B + n * B)
      (by omega) (by omega)).symm]
    rw [show k * B + (n + 1) * B = k * B + B + n * B from by ring,
      show k + (n + 1) = k + 1 + n from by omega]

theorem chunkD_eq {cnt : Nat} (fc : Nat) (h : 1 < cnt) :
    chunkD cnt (fc + 1) = 0x44 :: (min cnt 256 - 1) :: chunkD (cnt - min cnt 256) fc := by
  rw [chunkD, if_pos h]

theorem chunkD_one (fc : Nat) : chunkD 1 fc = [0x43] := by
  cases fc <;> (rw [chunkD]; norm_num)

theorem chunkD_zero (fc : Nat) : chunkD 0 fc = [] := by
  cases fc <;> (rw [chunkD]; norm_num)

theorem chunk_records {T R patch : List Nat} {B : Nat} :
    ∀ (fc cnt k pos : Nat) (out rest : List Nat) (fa : Nat),
    cnt ≤ 256 * fc + 1 →
    (∀ m, m < cnt → (k + m) * B + B ≤ R.length ∧
      pySlice R ((k + m) * B) ((k + m) * B + B) =
        pySlice T ((k + m) * B) ((k + m) * B + B)) →
    patch.drop pos = chunkD cnt fc ++ rest →
    patch.length - pos ≤ fa →
    applyLoop patch (R ++ List.replicate B 0) B pos out (k * B) fa =
      applyLoop patch (R ++ List.replicate B 0) B (pos + (chunkD cnt fc).length)
        (out ++ pySlice T (k * B) (k * B + cnt * B)) ((k + cnt) * B) fa := by
  intro fc
  induction fc with
  | zero =>
    intro cnt k pos out rest fa hcnt hgood hdrop hfa
    have hcase : cnt = 0 ∨ cnt = 1 := by omega
    rcases hcase with rfl | rfl
    · rw [chunkD_zero] at hdrop ⊢
      simp [pySlice_self]
    · rw [chunkD_one] at hdrop ⊢
      obtain ⟨g, rfl⟩ : ∃ g, fa = g + 1 :=
        ⟨fa - 1, by have := pos_lt_of_drop hdrop; omega⟩
      rw [applyStep_C hdrop]
      obtain ⟨hb, hs⟩ := hgood 0 (by omega)
      simp only [Nat.add_zero] at hb hs
      rw [pySlice_append_left hb, hs]
      rw [show (k + 1) * B = k * B + B from by ring,
        show k * B + 1 * B = k * B + B from by ring]
      simp only [List.length_cons, List.length_nil, Nat.zero_add]
      apply applyLoop_fuel <;> omega
  | succ fc ih =>
    intro cnt k pos out rest fa hcnt hgood hdrop hfa
    by_cases h2 : 1 < cnt
    case neg =>
      have hcase : cnt = 0 ∨ cnt = 1 := by omega
      rcases hcase with rfl | rfl
      · rw [chunkD_zero] at hdrop ⊢
        simp [pySlice_self]
      · rw [chunkD_one] at hdrop ⊢
        obtain ⟨g, rfl⟩ : ∃ g, fa = g + 1 :=
          ⟨fa - 1, by have := pos_lt_of_drop hdrop; omega⟩
        rw [applyStep_C hdrop]
        obtain ⟨hb, hs⟩ := hgood 0 (by omega)
        simp only [Nat.add_zero] at hb hs
        rw [pySlice_append_left hb, hs]
        rw [show (k + 1) * B = k * B + B from by ring,
          show k * B + 1 * B = k * B + B from by ring]
        simp only [List.length_cons, List.length_nil, Nat.zero_add]
        apply applyLoop_fuel <;> omega
    case pos =>
      rw [chunkD_eq fc h2] at hdrop ⊢
      have hn2 : 2 ≤ min cnt 256 := by omega
      obtain ⟨g, rfl⟩ : ∃ g, fa = g + 1 :=
        ⟨fa - 1, by have := pos_lt_of_drop hdrop; omega⟩
      rw [applyStep_D hdrop]
      rw [show min cnt 256 - 1 + 1 = min cnt 256 from by omega]
      rw [dLoop_good (min cnt 256) k out (fun m hm => hgood m (by omega))]
      have hdrop2 : patch.drop (pos + 2) = chunkD (cnt - min cnt 256) fc ++ rest :=
        drop_add_of_drop hdrop 2
      rw [ih (cnt - min cnt 256) (k + min cnt 256) (pos + 2) _ rest g
        (by omega) ?goodrest hdrop2 (by omega)]
      case goodrest =>
        intro m hm
        have := hgood (min cnt 256 + m) (by omega)
        rwa [show k + (min cnt 256 + m) = k + min cnt 256 + m from by omega] at this
      rw [List.append_assoc, slice_run_merge,
        show min cnt 256 + (cnt - min cnt 256) = cnt from by omega]
      rw [show k + min cnt 256 + (cnt - min cnt 256) = k + cnt from by omega]
      rw [show (0x44 :: (min cnt 256 - 1) :: chunkD (cnt - min cnt 256) fc).length =
        2 + (chunkD (cnt - min cnt 256) fc).length from by simp; omega]
      rw [show pos + 2 + (chunkD (cnt - min cnt 256) fc).length =
        pos + (2 + (chunkD (cnt - min cnt 256) fc).length) from by omega]
      apply applyLoop_fuel <;> omega

theorem slice_block_merge2 {T : List Nat} {B k m : Nat} :
    pySlice T (k * B) ((k + 1) * B) ++ pySlice T ((k + 1) * B) ((k + 1) * B + m * B) =
    pySlice T (k * B) (k * B + (m + 1) * B) := by
  have e1 : (k + 1) * B = k * B + B := by ring
  have e2 : k * B + (m + 1) * B = (k + 1) * B + m * B := by ring
  rw [e2]
  exact (pySlice_split (by omega) (by omega)).symm

theorem apply_records {T R patch : List Nat} {B : Nat} :
    ∀ (fe : Nat) (rs : List (Nat × List Nat)) (k pos : Nat) (out rest : List Nat) (fa : Nat),
    Goods T R B rs k →
    rs.length ≤ fe →
    patch.drop pos = emitRecords rs fe ++ rest →
    patch.length - pos ≤ fa →
    applyLoop patch (R ++ List.replicate B 0) B pos out (k * B) fa =
      applyLoop patch (R ++ List.replicate B 0) B (pos + (emitRecords rs fe).length)
        (out ++ pySlice T (k * B) (k * B + rs.length * B)) ((k + rs.length) * B) fa := by
  intro fe
  induction fe with
  | zero =>
    intro rs k pos out rest fa hg hlen hdrop hfa
    have hnil : rs = [] := List.length_eq_zero.mp (by omega)
    subst hnil
    simp [emitRecords, pySlice_self]
  | succ fe ih =>
    intro rs k pos out rest fa hg hlen hdrop hfa
    cases hg with
    | nil => simp [emitRecords, pySlice_self]
    | @cons rec0 rs2 _ hr hrs2 =>
      have hlen2 : rs2.length + 1 ≤ fe + 1 := by simpa using hlen
      by_cases h43 : rec0.1 = 0x43
      · -- run of same-offset matches
        have hemit : emitRecords (rec0 :: rs2) (fe + 1) =
            chunkD (leadC rs2 + 1) (leadC rs2 + 1) ++
              emitRecords (rs2.drop (leadC rs2)) fe := by
          rw [emitRecords, if_pos h43]
          rw [show leadC rs2 + 1 - 1 = leadC rs2 from by omega]
          congr 1
          split_ifs with h1
          · rw [h1, chunkD_one]
          · rfl
        have hgoodrun : ∀ m, m < leadC rs2 + 1 →
            (k + m) * B + B ≤ R.length ∧
            pySlice R ((k + m) * B) ((k + m) * B + B) =
              pySlice T ((k + m) * B) ((k + m) * B + B) := by
          intro m hm
          cases m with
          | zero =>
            rcases hr with ⟨-, h1, h2⟩ | ⟨j, hre, -, -, -⟩ | ⟨d, hre, -, -, -⟩ | ⟨hre, -⟩
            · simpa using ⟨h1, h2⟩
            · rw [hre] at h43; simp at h43
            · rw [hre] at h43; simp at h43
            · rw [hre] at h43; simp at h43
          | succ m =>
            have := leadC_good hrs2 m (by omega)
            rwa [show k + 1 + m = k + (m + 1) from by omega] at this
        have hLle := leadC_le rs2
        rw [hemit] at hdrop ⊢
        rw [List.append_assoc] at hdrop
        rw [chunk_records (leadC rs2 + 1) (leadC rs2 + 1) k pos out
          (emitRecords (rs2.drop (leadC rs2)) fe ++ rest) fa (by omega) hgoodrun hdrop hfa]
        have hdrop2 : patch.drop (pos + (chunkD (leadC rs2 + 1) (leadC rs2 + 1)).length) =
            emitRecords (rs2.drop (leadC rs2)) fe ++ rest := by
          rw [drop_add_of_drop hdrop (chunkD (leadC rs2 + 1) (leadC rs2 + 1)).length,
            List.drop_left]
        have hgd : Goods T R B (rs2.drop (leadC rs2)) (k + (leadC rs2 + 1)) := by
          have := goods_drop (leadC rs2) hrs2
          rwa [show k + 1 + leadC rs2 = k + (leadC rs2 + 1) from by omega] at this
        rw [ih (rs2.drop (leadC rs2)) (k + (leadC rs2 + 1))
          (pos + (chunkD (leadC rs2 + 1) (leadC rs2 + 1)).length) _ rest fa hgd
          (by simp only [List.length_drop]; omega) hdrop2 (by omega)]
        rw [List.append_assoc, slice_run_merge]
        rw [show leadC rs2 + 1 + (rs2.drop (leadC rs2)).length = (rec0 :: rs2).length from by
          simp only [List.length_drop, List.length_cons]; omega]
        rw [show k + (leadC rs2 + 1) + (rs2.drop (leadC rs2)).length =
          k + (rec0 :: rs2).length from by
          simp only [List.length_drop, List.length_cons]; omega]
        rw [show pos + (chunkD (leadC rs2 + 1) (leadC rs2 + 1)).length +
            (emitRecords (rs2.drop (leadC rs2)) fe).length =
            pos + (chunkD (leadC rs2 + 1) (leadC rs2 + 1) ++
              emitRecords (rs2.drop (leadC rs2)) fe).length from by
          simp only [List.length_append]; omega]
      · -- a single non-C record
        rcases hr with ⟨hre, -, -⟩ | ⟨j, hre, hj24, hjB, hjW⟩ |
          ⟨d, hre, hdB, hkB, hdW⟩ | ⟨hre, hlenB⟩
        · rw [hre] at h43; simp at h43
        · -- relocated match
          subst hre
          have hemit : emitRecords ((0x52, bytes3 j) :: rs2) (fe + 1) =
              0x52 :: (bytes3 j ++ emitRecords rs2 fe) := by
            rw [emitRecords]
            norm_num
          rw [hemit] at hdrop ⊢
          obtain ⟨g, rfl⟩ : ∃ g, fa = g + 1 :=
            ⟨fa - 1, by have := pos_lt_of_drop hdrop; omega⟩
          rw [List.cons_append, List.append_assoc] at hdrop
          rw [applyStep_R hdrop rfl]
          rw [fromBytes_bytes3 hj24, pySlice_append_left hjB, hjW]
          rw [show k * B + B = (k + 1) * B from by ring]
          rw [ih rs2 (k + 1) (pos + 4) _ rest g hrs2 (by omega)
            (drop_add_of_drop hdrop 4) (by omega)]
          rw [List.append_assoc, slice_block_merge2]
          rw [show k + 1 + rs2.length = k + (rs2.length + 1) from by omega]
          rw [show pos + 4 + (emitRecords rs2 fe).length =
            pos + (0x52 :: (bytes3 j ++ emitRecords rs2 fe)).length from by
            simp [bytes3]; omega]
          rw [show (rs2.length + 1) = ((0x52, bytes3 j) :: rs2).length from by simp]
          have h1len : 1 ≤ (0x52 :: (bytes3 j ++ emitRecords rs2 fe)).length := by
            simp only [List.length_cons]; omega
          apply applyLoop_fuel <;> omega
        · -- XOR delta
          subst hre
          have hemit : emitRecords ((0x58, rle_encode d) :: rs2) (fe + 1) =
              0x58 :: (rle_encode d).length :: (rle_encode d ++ emitRecords rs2 fe) := by
            rw [emitRecords]
            norm_num
          rw [hemit] at hdrop ⊢
          obtain ⟨g, rfl⟩ : ∃ g, fa = g + 1 :=
            ⟨fa - 1, by have := pos_lt_of_drop hdrop; omega⟩
          rw [List.cons_append, List.cons_append, List.append_assoc] at hdrop
          rw [applyStep_X hdrop rfl (rle_round_trip_aux d)]
          rw [pySlice_append_left hkB, hdW]
          rw [show k * B + B = (k + 1) * B from by ring]
          rw [ih rs2 (k + 1) (pos + 2 + (rle_encode d).length) _ rest g hrs2 (by omega)
            (by
              have h9 := drop_add_of_drop hdrop ((rle_encode d).length + 2)
              rw [show pos + ((rle_encode d).length + 2) =
                pos + 2 + (rle_encode d).length from by omega] at h9
              rw [h9]
              exact List.drop_left _ _)
            (by omega)]
          rw [List.append_assoc, slice_block_merge2]
          rw [show k + 1 + rs2.length = k + (rs2.length + 1) from by omega]
          rw [show pos + 2 + (rle_encode d).length + (emitRecords rs2 fe).length =
            pos + (0x58 :: (rle_encode d).length ::
              (rle_encode d ++ emitRecords rs2 fe)).length from by simp; omega]
          rw [show (rs2.length + 1) = ((0x58, rle_encode d) :: rs2).length from by simp]
          have h1len : 1 ≤ (0x58 :: (rle_encode d).length ::
              (rle_encode d ++ emitRecords rs2 fe)).length := by
            simp only [List.length_cons]; omega
          apply applyLoop_fuel <;> omega
        · -- raw insert
          rw [hre] at hdrop ⊢
          have hemit : emitRecords ((0x49, pySlice T (k * B) (k * B + B)) :: rs2) (fe + 1) =
              0x49 :: (pySlice T (k * B) (k * B + B) ++ emitRecords rs2 fe) := by
            rw [emitRecords]
            norm_num
          rw [hemit] at hdrop ⊢
          obtain ⟨g, rfl⟩ : ∃ g, fa = g + 1 :=
            ⟨fa - 1, by have := pos_lt_of_drop hdrop; omega⟩
          rw [List.cons_append, List.append_assoc] at hdrop
          rw [applyStep_I hdrop hlenB]
          rw [show k * B + B = (k + 1) * B from by ring]
          rw [ih rs2 (k + 1) (pos + 1 + B) _ rest g hrs2 (by omega)
            (by
              have h9 := drop_add_of_drop hdrop (B + 1)
              rw [show pos + (B + 1) = pos + 1 + B from by omega] at h9
              rw [h9]
              show (pySlice T (k * B) (k * B + B) ++ (emitRecords rs2 fe ++ rest)).drop B =
                emitRecords rs2 fe ++ rest
              exact List.drop_left' hlenB)
            (by omega)]
          rw [List.append_assoc]
          rw [show pySlice T (k * B) ((k + 1) * B) = pySlice T (k * B) (k * B + B) from by
            rw [show (k + 1) * B = k * B + B from by ring]]
          rw [show pySlice T (k * B) (k * B + B) ++
              pySlice T ((k + 1) * B) ((k + 1) * B + rs2.length * B) =
              pySlice T (k * B) (k * B + (rs2.length + 1) * B) from by
            rw [show k * B + B = k * B + 1 * B from by ring]
            rw [slice_run_merge]
            rw [show 1 + rs2.length = rs2.length + 1 from by omega]]
          rw [show k + 1 + rs2.length = k + (rs2.length + 1) from by omega]
          rw [show pos + 1 + B + (emitRecords rs2 fe).length =
            pos + (0x49 :: (pySlice T (k * B) (k * B + B) ++ emitRecords rs2 fe)).length from by
            simp [hlenB]; omega]
          rw [show (rs2.length + 1) =
            ((0x49, pySlice T (k * B) (k * B + B)) :: rs2).length from by simp]
          have h1len : 1 ≤ (0x49 :: (pySlice T (k * B) (k * B + B) ++
              emitRecords rs2 fe)).length := by
            simp only [List.length_cons]; omega
          apply applyLoop_fuel <;> omega

/-- Full round-trip: applying an encoder-generated patch to the reference
reconstructs the target exactly. -/
theorem generate_apply_aux (T R : List Nat) {B : Nat} (hB : 0 < B) (h8 : B % 8 = 0) :
    apply_patch (generate_patch T R B) R = some T := by
  have hgood : Goods T R B ((List.range (T.length / B)).map
      (fun idx => classifyBlock T R B (build_lookup R B) (idx * B))) 0 :=
    goods_map_range hB (T.length / B) (Nat.div_mul_le_self _ _)
  have hgp : generate_patch T R B =
      B :: (emitRecords ((List.range (T.length / B)).map
          (fun idx => classifyBlock T R B (build_lookup R B) (idx * B)))
        ((List.range (T.length / B)).map
          (fun idx => classifyBlock T R B (build_lookup R B) (idx * B))).length ++
        (if T.length % B ≠ 0 then
          0x50 :: T.length % B :: T.drop (T.length / B * B) else [])) := rfl
  rw [hgp]
  set recs := (List.range (T.length / B)).map
    (fun idx => classifyBlock T R B (build_lookup R B) (idx * B)) with hrecs
  set tl := (if T.length % B ≠ 0 then
    0x50 :: T.length % B :: T.drop (T.length / B * B) else ([] : List Nat)) with htl
  unfold apply_patch
  rw [if_neg (by simp)]
  simp only [List.getD_cons_zero]
  rw [if_neg (by push_neg; exact ⟨by omega, h8⟩)]
  have hrl : recs.length = T.length / B := by rw [hrecs]; simp
  have hdrop1 : (B :: (emitRecords recs recs.length ++ tl)).drop 1 =
      emitRecords recs recs.length ++ tl := rfl
  have happ := @apply_records T R (B :: (emitRecords recs recs.length ++ tl)) B
    recs.length recs 0 1 [] tl
    ((B :: (emitRecords recs recs.length ++ tl)).length) hgood (le_refl _) hdrop1 (by omega)
  simp only [Nat.zero_mul, Nat.zero_add, List.nil_append] at happ
  rw [happ, pySlice_zero]
  have heuclid : T.length / B * B + T.length % B = T.length := by
    rw [Nat.mul_comm]
    exact Nat.div_add_mod T.length B
  by_cases hrem : T.length % B = 0
  · have htl0 : tl = [] := by rw [htl, if_neg (by omega)]
    have hlenpatch : (B :: (emitRecords recs recs.length ++ tl)).length =
        1 + (emitRecords recs recs.length).length := by
      rw [htl0]
      simp only [List.append_nil, List.length_cons]
      omega
    rw [applyTerm (by rw [hlenpatch])]
    have hfull : recs.length * B = T.length := by
      rw [hrl]
      exact Nat.div_mul_cancel (Nat.dvd_of_mod_eq_zero hrem)
    rw [hfull, List.take_length]
    rfl
  · have htl1 : tl = 0x50 :: T.length % B :: T.drop (T.length / B * B) := by
      rw [htl, if_pos hrem]
    have hlen_td : (T.drop (T.length / B * B)).length = T.length % B := by
      simp only [List.length_drop]
      omega
    have hdrop2 : (B :: (emitRecords recs recs.length ++ tl)).drop
        (1 + (emitRecords recs recs.length).length) =
        0x50 :: T.length % B :: (T.drop (T.length / B * B) ++ []) := by
      have h9 := drop_add_of_drop hdrop1 (emitRecords recs recs.length).length
      rw [h9, List.drop_left, htl1, List.append_nil]
    have hgbound : (B :: (emitRecords recs recs.length ++ tl)).length =
        1 + (emitRecords recs recs.length).length + 2 + T.length % B := by
      rw [htl1]
      simp only [List.length_cons, List.length_append, hlen_td]
      omega
    rw [List.length_cons]
    rw [applyStep_P hdrop2 hlen_td]
    rw [show T.length / B * B = recs.length * B from by rw [hrl]]
    rw [List.take_append_drop]
    rw [applyTerm (by omega)]
    rfl

/-! ## Identity-input stream structure -/

theorem classify_self {R : List Nat} {B : Nat} (lk : List (List Nat × Nat)) {posn : Nat}
    (h : posn + B ≤ R.length) : classifyBlock R R B lk posn = (0x43, []) := by
  unfold classifyBlock
  dsimp only
  rw [if_pos ⟨h, rfl⟩]

theorem map_range_const {f : Nat → Nat × List Nat} {c : Nat × List Nat} :
    ∀ (n : Nat), (∀ i, i < n → f i = c) → (List.range n).map f = List.replicate n c := by
  intro n
  induction n with
  | zero => intro h; simp
  | succ n ih =>
    intro h
    rw [List.range_succ, List.map_append, List.map_cons, List.map_nil,
      ih (fun i hi => h i (by omega)), h n (by omega), List.replicate_succ']

theorem leadC_replicate : ∀ (n : Nat), leadC (List.replicate n (0x43, ([] : List Nat))) = n := by
  intro n
  induction n with
  | zero => simp [leadC]
  | succ n ih => rw [List.replicate_succ, leadC, if_pos rfl, ih]

theorem emitRecords_replicate : ∀ (n : Nat), 1 ≤ n →
    emitRecords (List.replicate n (0x43, ([] : List Nat))) n = chunkD n n := by
  intro n h1
  obtain ⟨m, rfl⟩ : ∃ m, n = m + 1 := ⟨n - 1, by omega⟩
  rw [List.replicate_succ, emitRecords, if_pos rfl]
  rw [leadC_replicate m]
  rw [show m + 1 - 1 = m from by omega]
  rw [List.drop_eq_nil_of_le (by simp)]
  rw [show emitRecords [] m = [] from by cases m <;> rfl]
  rw [List.append_nil]
  split_ifs with hone
  · rw [hone, chunkD_one]
  · rfl

theorem cdBlocks_chunkD : ∀ (fc cnt : Nat), cnt ≤ 256 * fc + 1 →
    cdBlocks (chunkD cnt fc) = some cnt := by
  intro fc
  induction fc with
  | zero =>
    intro cnt h
    have hc : cnt = 0 ∨ cnt = 1 := by omega
    rcases hc with rfl | rfl
    · rw [chunkD_zero]; rfl
    · rw [chunkD_one]; rfl
  | succ fc ih =>
    intro cnt h
    by_cases h2 : 1 < cnt
    · rw [chunkD_eq fc h2]
      simp only [cdBlocks]
      rw [ih (cnt - min cnt 256) (by omega)]
      simp only [Option.map_some']
      congr 1
      omega
    · have hc : cnt = 0 ∨ cnt = 1 := by omega
      rcases hc with rfl | rfl
      · rw [chunkD_zero]; rfl
      · rw [chunkD_one]; rfl

/-- When the target equals the reference and divides evenly into blocks,
the emitted stream is the header followed by one collapsed run. -/
theorem generate_patch_self (R : List Nat) {B : Nat}
    (hmod : R.length % B = 0) :
    generate_patch R R B = B :: chunkD (R.length / B) (R.length / B) := by
  have hdvd : R.length / B * B = R.length := Nat.div_mul_cancel (Nat.dvd_of_mod_eq_zero hmod)
  have hrecs : (List.range (R.length / B)).map
      (fun idx => classifyBlock R R B (build_lookup R B) (idx * B)) =
      List.replicate (R.length / B) (0x43, []) :=
    map_range_const _ (fun i hi => classify_self _ (by
      have h1 : (i + 1) * B ≤ R.length / B * B := Nat.mul_le_mul_right _ (by omega)
      have h2 : (i + 1) * B = i * B + B := by ring
      omega))
  have hgp : generate_patch R R B =
      B :: (emitRecords ((List.range (R.length / B)).map
          (fun idx => classifyBlock R R B (build_lookup R B) (idx * B)))
        ((List.range (R.length / B)).map
          (fun idx => classifyBlock R R B (build_lookup R B) (idx * B))).length ++
        (if R.length % B ≠ 0 then
          0x50 :: R.length % B :: R.drop (R.length / B * B) else [])) := rfl
  rw [hgp, hrecs, if_neg (by omega), List.append_nil, List.length_replicate]
  rcases Nat.eq_zero_or_pos (R.length / B) with hz | hpos
  · rw [hz]; rfl
  · rw [emitRecords_replicate _ hpos]

/-! ## Write-cursor invariant under in-bounds reads -/

theorem roStep_C {patch : List Nat} {L B pos w f : Nat} {r : List Nat}
    (h : patch.drop pos = 0x43 :: r) :
    readsOk patch L B pos w (f + 1) =
      (decide (w ≤ L) && readsOk patch L B (pos + 1) (w + B) f) := by
  have hp : pos < patch.length := pos_lt_of_drop h
  have h0 : patch.getD pos 0 = 0x43 := getD_of_drop patch pos h
  rw [readsOk, if_pos hp]
  dsimp only
  rw [h0]
  norm_num

theorem roStep_D {patch : List Nat} {L B pos w f c : Nat} {r : List Nat}
    (h : patch.drop pos = 0x44 :: c :: r) :
    readsOk patch L B pos w (f + 1) =
      (decide (w + c * B ≤ L) && readsOk patch L B (pos + 2) (w + (c + 1) * B) f) := by
  have hp : pos < patch.length := pos_lt_of_drop h
  have h0 : patch.getD pos 0 = 0x44 := getD_of_drop patch pos h
  have h1 : patch.getD (pos + 1) 0 = c := getD_of_drop patch (pos + 1) (drop_cons_succ h)
  have hlen : ¬ patch.length < pos + 2 := by
    have := length_of_drop (drop_cons_succ h); omega
  rw [readsOk, if_pos hp]
  dsimp only
  rw [h0, h1, if_neg hlen]
  norm_num

theorem roStep_R {patch : List Nat} {L B pos w f : Nat} {p3 r : List Nat}
    (h : patch.drop pos = 0x52 :: (p3 ++ r)) (hp3 : p3.length = 3) :
    readsOk patch L B pos w (f + 1) =
      (decide (fromBytesBE p3 ≤ L) && readsOk patch L B (pos + 4) (w + B) f) := by
  have hp : pos < patch.length := pos_lt_of_drop h
  have h0 : patch.getD pos 0 = 0x52 := getD_of_drop patch pos h
  have hlen : ¬ patch.length < pos + 4 := by
    have := length_of_drop h; simp [hp3] at this; omega
  have hslice : pySlice patch (pos + 1) (pos + 4) = p3 := by
    have h2 := pySlice_of_drop h 1 4
    simpa [List.take_left' hp3] using h2
  rw [readsOk, if_pos hp]
  dsimp only
  rw [h0, if_neg hlen, hslice]
  norm_num

theorem roStep_I {patch : List Nat} {L B pos w f : Nat} {blk r : List Nat}
    (h : patch.drop pos = 0x49 :: (blk ++ r)) (hblk : blk.length = B) :
    readsOk patch L B pos w (f + 1) = readsOk patch L B (pos + 1 + B) (w + B) f := by
  have hp : pos < patch.length := pos_lt_of_drop h
  have h0 : patch.getD pos 0 = 0x49 := getD_of_drop patch pos h
  have hlen : ¬ patch.length < pos + 1 + B := by
    have := length_of_drop h; simp [hblk] at this; omega
  rw [readsOk, if_pos hp]
  dsimp only
  rw [h0, if_neg hlen]
  norm_num

theorem roStep_X {patch : List Nat} {L B pos w f n : Nat} {payload r d : List Nat}
    (h : patch.drop pos = 0x58 :: n :: (payload ++ r)) (hpay : payload.length = n)
    (hrd : rle_decode payload = some d) :
    readsOk patch L B pos w (f + 1) =
      (decide (d.length = B ∧ w ≤ L) && readsOk patch L B (pos + 2 + n) (w + B) f) := by
  have hp : pos < patch.length := pos_lt_of_drop h
  have h0 : patch.getD pos 0 = 0x58 := getD_of_drop patch pos h
  have h1 : patch.getD (pos + 1) 0 = n := getD_of_drop patch (pos + 1) (drop_cons_succ h)
  have hlen2 : ¬ patch.length < pos + 2 := by have := length_of_drop h; simp at this; omega
  have hlen3 : ¬ patch.length < pos + 2 + n := by
    have := length_of_drop (drop_cons_succ h); simp [hpay] at this; omega
  have hslice : pySlice patch (pos + 2) (pos + 2 + n) = payload := by
    have h2 := pySlice_of_drop h 2 (2 + n)
    rw [show pos + (2 + n) = pos + 2 + n from by omega] at h2
    simp only [List.drop_succ_cons, List.drop_zero] at h2
    rw [show 2 + n - 2 = n from by omega] at h2
    rw [h2, List.take_left' hpay]
  rw [readsOk, if_pos hp]
  dsimp only
  rw [h0, h1]
  simp only [if_neg hlen2, if_neg hlen3]
  rw [hslice, hrd]
  norm_num

theorem roStep_P {patch : List Nat} {L B pos w f n : Nat} {payload r : List Nat}
    (h : patch.drop pos = 0x50 :: n :: (payload ++ r)) (hpay : payload.length = n) :
    readsOk patch L B pos w (f + 1) =
      decide (0 < n ∧ n < B ∧
        (pos + 2 + n = patch.length ∨ patch.getD (pos + 2 + n) 0 = 0)) := by
  have hp : pos < patch.length := pos_lt_of_drop h
  have h0 : patch.getD pos 0 = 0x50 := getD_of_drop patch pos h
  have h1 : patch.getD (pos + 1) 0 = n := getD_of_drop patch (pos + 1) (drop_cons_succ h)
  have hlen2 : ¬ patch.length < pos + 2 := by have := length_of_drop h; simp at this; omega
  have hlen3 : ¬ patch.length < pos + 2 + n := by
    have := length_of_drop (drop_cons_succ h); simp [hpay] at this; omega
  rw [readsOk, if_pos hp]
  dsimp only
  rw [h0, h1]
  simp only [if_neg hlen2, if_neg hlen3]
  norm_num

theorem roZero {patch : List Nat} {L B pos w f : Nat} {r : List Nat}
    (h : patch.drop pos = 0x00 :: r) :
    readsOk patch L B pos w (f + 1) = true := by
  have hp : pos < patch.length := pos_lt_of_drop h
  have h0 : patch.getD pos 0 = 0x00 := getD_of_drop patch pos h
  rw [readsOk, if_pos hp]
  dsimp only
  rw [h0]
  norm_num

theorem dLoop_len {reference : List Nat} {B : Nat} :
    ∀ (n : Nat) (out : List Nat) (w : Nat),
    (∀ m, m < n → w + m * B ≤ reference.length) →
    (dLoop (reference ++ List.replicate B 0) B n (out, w)).1.length = out.length + n * B ∧
    (dLoop (reference ++ List.replicate B 0) B n (out, w)).2 = w + n * B := by
  intro n
  induction n with
  | zero => intro out w h; simp [dLoop]
  | succ n ih =>
    intro out w h
    rw [dLoop]
    dsimp only
    have hw : w ≤ reference.length := by
      have := h 0 (by omega)
      omega
    have hslen : (pySlice (reference ++ List.replicate B 0) w (w + B)).length = B := by
      apply pySlice_length
      simp only [List.length_append, List.length_replicate]
      omega
    obtain ⟨ha, hb⟩ := ih (out ++ pySlice (reference ++ List.replicate B 0) w (w + B)) (w + B)
      (fun m hm => by
        have h1 := h (m + 1) (by omega)
        have h2 : (m + 1) * B = B + m * B := by ring
        omega)
    refine ⟨?_, ?_⟩
    · rw [ha]
      simp only [List.length_append, hslen]
      have e3 : (n + 1) * B = n * B + B := by ring
      omega
    · rw [hb]
      have e3 : (n + 1) * B = n * B + B := by ring
      omega

/-- Invariant: with all reads in bounds, each record preserves `|out| = w`
and `w ≡ 0 mod B`; a final `P` record adds its payload length to `|out|` only. -/
theorem readsOk_inv {patch reference : List Nat} {B : Nat} :
    ∀ (fuel pos : Nat) (out : List Nat) (w : Nat) (o : List Nat) (w2 : Nat),
    out.length = w → w % B = 0 →
    readsOk patch reference.length B pos w fuel = true →
    applyLoop patch (reference ++ List.replicate B 0) B pos out w fuel = some (o, w2) →
    w2 % B = 0 ∧ (o.length = w2 ∨ ∃ l, 0 < l ∧ l < B ∧ o.length = w2 + l) := by
  intro fuel
  induction fuel with
  | zero =>
    intro pos out w o w2 hlen hmod hro happ
    by_cases hp : pos < patch.length
    · rw [readsOk, if_pos hp] at hro
      exact absurd hro (by simp)
    · rw [applyTerm (by omega)] at happ
      simp only [Option.some.injEq, Prod.mk.injEq] at happ
      obtain ⟨ho, hw2⟩ := happ
      subst ho; subst hw2
      exact ⟨hmod, Or.inl hlen⟩
  | succ f ih =>
    intro pos out w o w2 hlen hmod hro happ
    rcases hd : patch.drop pos with _ | ⟨t, r⟩
    · rw [applyTerm (List.drop_eq_nil_iff.mp hd)] at happ
      simp only [Option.some.injEq, Prod.mk.injEq] at happ
      obtain ⟨ho, hw2⟩ := happ
      subst ho; subst hw2
      exact ⟨hmod, Or.inl hlen⟩
    · have hp : pos < patch.length := pos_lt_of_drop hd
      by_cases h00 : t = 0x00
      · subst h00
        rw [applyStep_zero hd] at happ
        simp only [Option.some.injEq, Prod.mk.injEq] at happ
        obtain ⟨ho, hw2⟩ := happ
        subst ho; subst hw2
        exact ⟨hmod, Or.inl hlen⟩
      by_cases h43 : t = 0x43
      · subst h43
        rw [applyStep_C hd] at happ
        rw [roStep_C hd] at hro
        simp only [Bool.and_eq_true, decide_eq_true_eq] at hro
        obtain ⟨hw, hro2⟩ := hro
        refine ih (pos + 1) _ (w + B) o w2 ?_ ?_ hro2 happ
        · simp only [List.length_append, hlen]
          rw [pySlice_length (by simp only [List.length_append, List.length_replicate]; omega)]
        · have := Nat.add_mod_right w B
          omega
      by_cases h44 : t = 0x44
      · subst h44
        rcases r with _ | ⟨c, r2⟩
        · rw [applyTrunc_D hd] at happ; exact absurd happ (by simp)
        · rw [applyStep_D hd] at happ
          rw [roStep_D hd] at hro
          simp only [Bool.and_eq_true, decide_eq_true_eq] at hro
          obtain ⟨hw, hro2⟩ := hro
          obtain ⟨hl1, hl2⟩ := @dLoop_len reference B (c + 1) out w
            (fun m hm => by
              have : m * B ≤ c * B := Nat.mul_le_mul_right B (by omega)
              omega)
          rw [hl2] at happ
          refine ih (pos + 2) _ (w + (c + 1) * B) o w2 ?_ ?_ hro2 happ
          · rw [hl1, hlen]
          · have := Nat.add_mul_mod_self_right w (c + 1) B
            omega
      by_cases h52 : t = 0x52
      · subst h52
        by_cases hr3 : r.length < 3
        · rw [applyTrunc_R hd hr3] at happ; exact absurd happ (by simp)
        · have hlen3 : (r.take 3).length = 3 := by rw [List.length_take]; omega
          rw [(List.take_append_drop 3 r).symm] at hd
          rw [applyStep_R hd hlen3] at happ
          rw [roStep_R hd hlen3] at hro
          simp only [Bool.and_eq_true, decide_eq_true_eq] at hro
          obtain ⟨hw, hro2⟩ := hro
          refine ih (pos + 4) _ (w + B) o w2 ?_ ?_ hro2 happ
          · simp only [List.length_append, hlen]
            rw [pySlice_length (by simp only [List.length_append, List.length_replicate]; omega)]
          · have := Nat.add_mod_right w B
            omega
      by_cases h49 : t = 0x49
      · subst h49
        by_cases hrB : r.length < B
        · rw [applyTrunc_I hd hrB] at happ; exact absurd happ (by simp)
        · have hlenB : (r.take B).length = B := by rw [List.length_take]; omega
          rw [(List.take_append_drop B r).symm] at hd
          rw [applyStep_I hd hlenB] at happ
          rw [roStep_I hd hlenB] at hro
          refine ih (pos + 1 + B) _ (w + B) o w2 ?_ ?_ hro happ
          · simp only [List.length_append, hlen, hlenB]
          · have := Nat.add_mod_right w B
            omega
      by_cases h58 : t = 0x58
      · subst h58
        rcases r with _ | ⟨n, r2⟩
        · rw [applyTrunc_X1 hd] at happ; exact absurd happ (by simp)
        · by_cases hrn : r2.length < n
          · rw [applyTrunc_X2 hd hrn] at happ; exact absurd happ (by simp)
          · have hlenn : (r2.take n).length = n := by rw [List.length_take]; omega
            rw [(List.take_append_drop n r2).symm] at hd
            rcases hrd : rle_decode (r2.take n) with _ | d
            · rw [applyNone_X hd hlenn hrd] at happ; exact absurd happ (by simp)
            · rw [applyStep_X hd hlenn hrd] at happ
              rw [roStep_X hd hlenn hrd] at hro
              simp only [Bool.and_eq_true, decide_eq_true_eq] at hro
              obtain ⟨⟨hdB, hw⟩, hro2⟩ := hro
              refine ih (pos + 2 + n) _ (w + B) o w2 ?_ ?_ hro2 happ
              · simp only [List.length_append, hlen, List.length_zipWith]
                rw [pySlice_length (by
                  simp only [List.length_append, List.length_replicate]; omega)]
                omega
              · have := Nat.add_mod_right w B
                omega
      by_cases h50 : t = 0x50
      · subst h50
        rcases r with _ | ⟨n, r2⟩
        · rw [applyTrunc_P1 hd] at happ; exact absurd happ (by simp)
        · by_cases hrn : r2.length < n
          · rw [applyTrunc_P2 hd hrn] at happ; exact absurd happ (by simp)
          · have hlenn : (r2.take n).length = n := by rw [List.length_take]; omega
            rw [(List.take_append_drop n r2).symm] at hd
            rw [applyStep_P hd hlenn] at happ
            rw [roStep_P hd hlenn] at hro
            simp only [decide_eq_true_eq] at hro
            obtain ⟨hn0, hnB, hfin⟩ := hro
            have hout : (out ++ r2.take n).length = w + n := by
              simp only [List.length_append, hlen, hlenn]
            rcases hfin with hend | hzero
            · rw [applyTerm (by omega)] at happ
              simp only [Option.some.injEq, Prod.mk.injEq] at happ
              obtain ⟨ho, hw2⟩ := happ
              subst ho; subst hw2
              exact ⟨hmod, Or.inr ⟨n, hn0, hnB, hout⟩⟩
            · rcases hd3 : patch.drop (pos + 2 + n) with _ | ⟨t3, r4⟩
              · rw [applyTerm (List.drop_eq_nil_iff.mp hd3)] at happ
                simp only [Option.some.injEq, Prod.mk.injEq] at happ
                obtain ⟨ho, hw2⟩ := happ
                subst ho; subst hw2
                exact ⟨hmod, Or.inr ⟨n, hn0, hnB, hout⟩⟩
              · have ht3 : t3 = 0 := by
                  have := getD_of_drop patch (pos + 2 + n) hd3
                  omega
                subst ht3
                cases f with
                | zero =>
                  rw [applyLoop, if_pos (pos_lt_of_drop hd3)] at happ
                  exact absurd happ (by simp)
                | succ f2 =>
                  rw [applyStep_zero hd3] at happ
                  simp only [Option.some.injEq, Prod.mk.injEq] at happ
                  obtain ⟨ho, hw2⟩ := happ
                  subst ho; subst hw2
                  exact ⟨hmod, Or.inr ⟨n, hn0, hnB, hout⟩⟩
      · rw [applyUnknown hd h00 h43 h44 h52 h49 h58 h50] at happ
        exact absurd happ (by simp)

theorem dOk_chunkD : ∀ (fc r : Nat), dOk (chunkD r fc) = true := by
  intro fc
  induction fc with
  | zero =>
    intro r
    by_cases h : 1 < r
    · rw [chunkD, if_pos h]
      rfl
    · have hc : r = 0 ∨ r = 1 := by omega
      rcases hc with rfl | rfl
      · rw [chunkD_zero]; rfl
      · rw [chunkD_one]; rfl
  | succ fc ih =>
    intro r
    by_cases h : 1 < r
    · rw [chunkD_eq fc h]
      simp only [dOk]
      rw [ih (r - min r 256)]
      simp
      omega
    · have hc : r = 0 ∨ r = 1 := by omega
      rcases hc with rfl | rfl
      · rw [chunkD_zero]; rfl
      · rw [chunkD_one]; rfl

set_option maxRecDepth 4096 in
theorem land128_lit : ∀ c, c < 256 → c &&& 128 = 0 → c &&& 127 = c := by
  decide

set_option maxRecDepth 8192 in
theorem gp_zeros2400 : generate_patch (List.replicate 2400 0) (List.replicate 2400 0) 8 =
    [8, 0x44, 0xFF, 0x44, 0x2B] := by
  have h := @generate_patch_self (List.replicate 2400 (0 : Nat)) 8 (by norm_num)
  rw [show (List.replicate 2400 (0 : Nat)).length / 8 = 300 from by norm_num] at h
  rw [h]
  decide

theorem apply_patch_header_invalid {patch ref : List Nat} (h1 : 1 ≤ patch.length)
    (h2 : patch.getD 0 0 = 0 ∨ patch.getD 0 0 % 8 ≠ 0) : apply_patch patch ref = none := by
  unfold apply_patch
  rw [if_neg (by omega), if_pos h2]

theorem decode_bin_short {raw : List Nat} (h : raw.length < 5) : decode_bin raw = none := by
  unfold decode_bin
  rw [if_pos h]

theorem rle_literal_truncated (c : Nat) (payload : List Nat) (h256 : c < 256)
    (h128 : c &&& 128 = 0) (hshort : payload.length < c + 1) :
    rle_decode (c :: payload) = some payload := by
  unfold rle_decode
  rw [List.length_cons]
  rw [rleDecStep_lit (show (c :: payload).drop 0 = c :: payload from by simp) (by simp [h128])]
  rw [land128_lit c h256 h128]
  rw [List.take_of_length_le (by omega)]
  rw [rleDecTerm (by simp; omega)]
  simp

theorem rle_repeat_truncated (c : Nat) (h : c &&& 128 ≠ 0) : rle_decode [c] = none := by
  unfold rle_decode
  exact rleDecNone_rep (by simp) h

/-! ## Claim theorems -/

/-- Claim C1: for every reference R, target T and valid block size B
(positive multiple of 8 at most 248), decoding the encoder's patch against R
reconstructs T bit-exactly: `apply_patch (generate_patch T R B) R = some T`. -/
theorem C1_round_trip (T R : List Nat) (B : Nat) (h1 : 0 < B) (h2 : B % 8 = 0)
    (h3 : B ≤ 248) : apply_patch (generate_patch T R B) R = some T :=
  generate_apply_aux T R h1 h2

/-- Witness for C1 at a concrete input (one full block plus a partial tail). -/
theorem C1_round_trip_witness :
    apply_patch (generate_patch [1, 2, 3, 4, 5, 6, 7, 8, 9] [1, 2, 3, 4, 5, 6, 7, 8] 8)
      [1, 2, 3, 4, 5, 6, 7, 8] = some [1, 2, 3, 4, 5, 6, 7, 8, 9] :=
  C1_round_trip [1, 2, 3, 4, 5, 6, 7, 8, 9] [1, 2, 3, 4, 5, 6, 7, 8] 8
    (by decide) (by decide) (by decide)

/-- Claim C2: for every finite byte sequence x,
`rle_decode (rle_encode x) = some x`. -/
theorem C2_rle_round_trip (x : List Nat) : rle_decode (rle_encode x) = some x :=
  rle_round_trip_aux x

/-- Counterexample to claim C3: an `X` record whose RLE payload decodes to a
1-byte delta (length ≠ B = 8) is applied without any error; `apply_patch`
returns output instead of failing. -/
theorem C3_counterexample :
    apply_patch [8, 0x58, 2, 0, 170] (List.replicate 8 0) = some [170] := by
  decide

/-- Claim C3 amended: `apply_patch` performs no length check on the RLE-decoded
delta of an `X` record; even when the delta length differs from B it XORs the
delta against the reference block (truncating to the shorter operand) and
continues parsing without raising an error. -/
theorem C3_no_delta_length_check (patch ref : List Nat) (B pos : Nat) (out : List Nat)
    (w fuel n : Nat) (payload r d : List Nat)
    (h : patch.drop pos = 0x58 :: n :: (payload ++ r)) (hpay : payload.length = n)
    (hrd : rle_decode payload = some d) (hne : d.length ≠ B) :
    applyLoop patch ref B pos out w (fuel + 1) =
      applyLoop patch ref B (pos + 2 + n)
        (out ++ List.zipWith Nat.xor d (pySlice ref w (w + B))) (w + B) fuel :=
  applyStep_X h hpay hrd

/-- Witness for the amended C3 at a concrete mismatched delta. -/
theorem C3_no_delta_length_check_witness :
    applyLoop [8, 0x58, 2, 0, 170] (List.replicate 16 0) 8 1 [] 0 4 =
      applyLoop [8, 0x58, 2, 0, 170] (List.replicate 16 0) 8 (1 + 2 + 2)
        ([] ++ List.zipWith Nat.xor [170] (pySlice (List.replicate 16 0) 0 (0 + 8))) (0 + 8) 3 :=
  C3_no_delta_length_check [8, 0x58, 2, 0, 170] (List.replicate 16 0) 8 1 [] 0 3 2
    [0, 170] [] [170] (by decide) (by decide) (by decide) (by decide)

/-- Counterexample to claim C4: a literal-run control byte declaring 6 payload
bytes with none present is decoded to an empty result without any error. -/
theorem C4_counterexample : rle_decode [5] = some [] := by
  decide

/-- Claim C4 amended: `rle_decode` raises only for a truncated repeat run (a
high-bit control byte that is the final input byte); a literal run whose
declared count extends past the end of the input silently returns just the
bytes that are present. -/
theorem C4_truncation_behaviour :
    (∀ (c : Nat) (payload : List Nat), c < 256 → c &&& 128 = 0 →
      payload.length < c + 1 → rle_decode (c :: payload) = some payload) ∧
    (∀ c : Nat, c &&& 128 ≠ 0 → rle_decode [c] = none) :=
  ⟨fun c payload h1 h2 h3 => rle_literal_truncated c payload h1 h2 h3,
   fun c h => rle_repeat_truncated c h⟩

/-- Witness for the amended C4. -/
theorem C4_truncation_behaviour_witness :
    rle_decode [6, 9] = some [9] ∧ rle_decode [131] = none :=
  ⟨C4_truncation_behaviour.1 6 [9] (by decide) (by decide) (by decide),
   C4_truncation_behaviour.2 131 (by decide)⟩

/-- Counterexample to claim C5: an error-free run of `apply_patch` containing
an `R` record whose offset 99 exceeds the reference length 8 ends with
`|O| = 0` while the write cursor is `w = 8`, so `|O| = w` fails. -/
theorem C5_counterexample :
    apply_patch [8, 0x52, 0, 0, 99] (List.replicate 8 0) = some [] ∧
    applyLoop [8, 0x52, 0, 0, 99] (List.replicate 8 0 ++ List.replicate 8 0) 8 1 [] 0 5 =
      some ([], 8) ∧
    ([] : List Nat).length ≠ 8 := by
  refine ⟨by decide, by decide, by decide⟩

/-- Claim C5 amended: provided every block read is in bounds of the unpadded
reference (same-position reads at `w ≤ |R|`, `R`-record reads at `off ≤ |R|`,
`X` deltas exactly B bytes, any `P` record final with `0 < len < B`), the write
cursor stays a multiple of B and `|O| = w` holds after every record, except
that a final `P` record leaves `|O| = w + len`.  An out-of-bounds read (e.g. an
`R` record with `off > |R|`) breaks the invariant, as the counterexample shows. -/
theorem C5_invariant_inbounds (patch reference : List Nat) (B fuel pos : Nat)
    (out : List Nat) (w : Nat) (o : List Nat) (w2 : Nat)
    (hlen : out.length = w) (hmod : w % B = 0)
    (hro : readsOk patch reference.length B pos w fuel = true)
    (happ : applyLoop patch (reference ++ List.replicate B 0) B pos out w fuel =
      some (o, w2)) :
    w2 % B = 0 ∧ (o.length = w2 ∨ ∃ l, 0 < l ∧ l < B ∧ o.length = w2 + l) :=
  readsOk_inv fuel pos out w o w2 hlen hmod hro happ

/-- Witness for the amended C5 on an in-bounds one-record patch. -/
theorem C5_invariant_inbounds_witness :
    (8 : Nat) % 8 = 0 ∧ ((List.replicate 8 (0 : Nat)).length = 8 ∨
      ∃ l, 0 < l ∧ l < 8 ∧ (List.replicate 8 (0 : Nat)).length = 8 + l) :=
  C5_invariant_inbounds [8, 0x43] (List.replicate 8 0) 8 2 1 [] 0
    (List.replicate 8 0) 8 (by decide) (by decide) (by decide) (by decide)

/-- Counterexample to claim C6: on 300 identical blocks the encoder does not
emit `D 0xFF`, `D 0x2A`, `C`; the remainder 44 is emitted as a single
`D 0x2B` record and no trailing `C` appears. -/
theorem C6_counterexample :
    generate_patch (List.replicate 2400 0) (List.replicate 2400 0) 8 ≠
      [8, 0x44, 0xFF, 0x44, 0x2A, 0x43] := by
  rw [gp_zeros2400]
  decide

/-- Claim C6 amended: for R = 300 × B zero bytes, T = R and B = 8, the 300
same-offset matches are emitted as exactly `D 0xFF` (256 copies) followed by
`D 0x2B` (44 copies); a trailing single `C` appears only when the remainder
after 256-chunking is exactly 1, which 300 does not produce. -/
theorem C6_run_chunking :
    generate_patch (List.replicate 2400 0) (List.replicate 2400 0) 8 =
      [8, 0x44, 0xFF, 0x44, 0x2B] :=
  gp_zeros2400

/-- Claim C7: a window occurring both at an aligned offset and at an unaligned
offset is mapped by the dictionary to its least aligned occurrence `a`
(aligned wins regardless of numeric order, ties go to the lowest offset), so
an `R` record emitted for that window carries `a`, never the unaligned `u`. -/
theorem C7_dictionary_priority (R : List Nat) (B : Nat) (w : List Nat) (a u : Nat)
    (haA : a % B = 0) (haIn : a + B ≤ min R.length 16777216)
    (haW : pySlice R a (a + B) = w)
    (haMin : ∀ i, i % B = 0 → i + B ≤ min R.length 16777216 →
      pySlice R i (i + B) = w → a ≤ i)
    (huA : u % B ≠ 0) (huIn : u + B ≤ min R.length 16777216)
    (huW : pySlice R u (u + B) = w) (hu : u < a) :
    assocFind w (build_lookup R B) = some a ∧ a ≠ u ∧
    ∀ (T : List Nat) (posn : Nat), pySlice T posn (posn + B) = w →
      ¬ (posn + B ≤ R.length ∧ pySlice R posn (posn + B) = pySlice T posn (posn + B)) →
      classifyBlock T R B (build_lookup R B) posn = (0x52, bytes3 a) := by
  have h1 := build_lookup_priority haA haIn haW haMin
  refine ⟨h1, ?_, ?_⟩
  · intro he
    rw [he] at haA
    exact huA haA
  · intro T posn hw hC
    exact classify_reloc hC (by rw [hw]; exact h1)

/-- Witness for C7: the 8-byte window of fives occurs unaligned at offset 1 and
aligned at offset 16; the dictionary maps it to 16. -/
theorem C7_dictionary_priority_witness :
    assocFind (List.replicate 8 5)
      (build_lookup [0, 5, 5, 5, 5, 5, 5, 5, 5, 0, 0, 0, 0, 0, 0, 0,
        5, 5, 5, 5, 5, 5, 5, 5] 8) = some 16 ∧ (16 : Nat) ≠ 1 := by
  have h := C7_dictionary_priority
    [0, 5, 5, 5, 5, 5, 5, 5, 5, 0, 0, 0, 0, 0, 0, 0, 5, 5, 5, 5, 5, 5, 5, 5] 8
    (List.replicate 8 5) 16 1 (by decide) (by decide) (by decide)
    (by
      intro i h1 h2 h3
      have hi : i ≤ 16 := by simp only [List.length_cons, List.length_nil] at h2; omega
      interval_cases i <;>
        first
          | decide
          | exact absurd h1 (by decide)
          | exact absurd h3 (by decide))
    (by decide) (by decide) (by decide) (by decide)
  exact ⟨h.1, h.2.1⟩

/-- Claim C8: when T = R and `|R| mod B = 0`, the emitted stream after the
header consists solely of `C`/`D` records covering all `|R| / B` blocks; no
`I`, `R`, `X` or `P` record appears (`cdBlocks` parses only `C`/`D` tags). -/
theorem C8_identity_stream (R : List Nat) (B : Nat) (h1 : 0 < B) (h2 : B % 8 = 0)
    (hmod : R.length % B = 0) :
    ∃ s, generate_patch R R B = B :: s ∧ cdBlocks s = some (R.length / B) :=
  ⟨chunkD (R.length / B) (R.length / B), generate_patch_self R hmod,
    cdBlocks_chunkD (R.length / B) (R.length / B) (by omega)⟩

/-- Witness for C8 on a concrete two-block identity input. -/
theorem C8_identity_stream_witness :
    ∃ s, generate_patch (List.replicate 16 0) (List.replicate 16 0) 8 = 8 :: s ∧
      cdBlocks s = some ((List.replicate 16 (0 : Nat)).length / 8) :=
  C8_identity_stream (List.replicate 16 0) 8 (by decide) (by decide) (by decide)

/-- Claim C9: the decode path fails fatally on a container shorter than 5
bytes, an invalid header (B = 0 or B mod 8 ≠ 0), every record whose declared
payload would read past the end of the patch stream (`D`, `R`, `I`, `X`, `P`),
and any tag byte other than the defined tags or 0x00. -/
theorem C9_decoder_errors :
    (∀ raw : List Nat, raw.length < 5 → decode_bin raw = none) ∧
    (∀ (patch ref : List Nat), 1 ≤ patch.length →
      (patch.getD 0 0 = 0 ∨ patch.getD 0 0 % 8 ≠ 0) → apply_patch patch ref = none) ∧
    (∀ (patch ref : List Nat) (B pos : Nat) (out : List Nat) (w fuel : Nat),
      patch.drop pos = [0x44] → applyLoop patch ref B pos out w fuel = none) ∧
    (∀ (patch ref : List Nat) (B pos : Nat) (out : List Nat) (w fuel : Nat) (r : List Nat),
      patch.drop pos = 0x52 :: r → r.length < 3 →
      applyLoop patch ref B pos out w fuel = none) ∧
    (∀ (patch ref : List Nat) (B pos : Nat) (out : List Nat) (w fuel : Nat) (r : List Nat),
      patch.drop pos = 0x49 :: r → r.length < B →
      applyLoop patch ref B pos out w fuel = none) ∧
    (∀ (patch ref : List Nat) (B pos : Nat) (out : List Nat) (w fuel : Nat),
      patch.drop pos = [0x58] → applyLoop patch ref B pos out w fuel = none) ∧
    (∀ (patch ref : List Nat) (B pos : Nat) (out : List Nat) (w fuel n : Nat) (r : List Nat),
      patch.drop pos = 0x58 :: n :: r → r.length < n →
      applyLoop patch ref B pos out w fuel = none) ∧
    (∀ (patch ref : List Nat) (B pos : Nat) (out : List Nat) (w fuel : Nat),
      patch.drop pos = [0x50] → applyLoop patch ref B pos out w fuel = none) ∧
    (∀ (patch ref : List Nat) (B pos : Nat) (out : List Nat) (w fuel n : Nat) (r : List Nat),
      patch.drop pos = 0x50 :: n :: r → r.length < n →
      applyLoop patch ref B pos out w fuel = none) ∧
    (∀ (patch ref : List Nat) (B pos : Nat) (out : List Nat) (w fuel t : Nat) (r : List Nat),
      patch.drop pos = t :: r → t ≠ 0x00 → t ≠ 0x43 → t ≠ 0x44 → t ≠ 0x52 → t ≠ 0x49 →
      t ≠ 0x58 → t ≠ 0x50 → applyLoop patch ref B pos out w fuel = none) :=
  ⟨fun _ h => decode_bin_short h,
   fun _ _ h1 h2 => apply_patch_header_invalid h1 h2,
   fun _ _ _ _ _ _ _ h => applyTrunc_D h,
   fun _ _ _ _ _ _ _ _ h hr => applyTrunc_R h hr,
   fun _ _ _ _ _ _ _ _ h hr => applyTrunc_I h hr,
   fun _ _ _ _ _ _ _ h => applyTrunc_X1 h,
   fun _ _ _ _ _ _ _ _ _ h hr => applyTrunc_X2 h hr,
   fun _ _ _ _ _ _ _ h => applyTrunc_P1 h,
   fun _ _ _ _ _ _ _ _ _ h hr => applyTrunc_P2 h hr,
   fun _ _ _ _ _ _ _ _ _ h h1 h2 h3 h4 h5 h6 h7 => applyUnknown h h1 h2 h3 h4 h5 h6 h7⟩

/-- Witness for C9: one concrete failing input per error class. -/
theorem C9_decoder_errors_witness :
    decode_bin [1, 2, 3, 4] = none ∧
    apply_patch [12, 0x43] [] = none ∧
    applyLoop [8, 0x44] [] 8 1 [] 0 3 = none ∧
    applyLoop [8, 0x52, 0] [] 8 1 [] 0 3 = none ∧
    applyLoop [8, 0x49, 1] [] 8 1 [] 0 3 = none ∧
    applyLoop [8, 0x58] [] 8 1 [] 0 3 = none ∧
    applyLoop [8, 0x58, 2, 7] [] 8 1 [] 0 3 = none ∧
    applyLoop [8, 0x50] [] 8 1 [] 0 3 = none ∧
    applyLoop [8, 0x50, 2, 7] [] 8 1 [] 0 3 = none ∧
    applyLoop [8, 0x41] [] 8 1 [] 0 3 = none :=
  ⟨C9_decoder_errors.1 [1, 2, 3, 4] (by decide),
   C9_decoder_errors.2.1 [12, 0x43] [] (by decide) (by decide),
   C9_decoder_errors.2.2.1 [8, 0x44] [] 8 1 [] 0 3 (by decide),
   C9_decoder_errors.2.2.2.1 [8, 0x52, 0] [] 8 1 [] 0 3 [0] (by decide) (by decide),
   C9_decoder_errors.2.2.2.2.1 [8, 0x49, 1] [] 8 1 [] 0 3 [1] (by decide) (by decide),
   C9_decoder_errors.2.2.2.2.2.1 [8, 0x58] [] 8 1 [] 0 3 (by decide),
   C9_decoder_errors.2.2.2.2.2.2.1 [8, 0x58, 2, 7] [] 8 1 [] 0 3 2 [7]
     (by decide) (by decide),
   C9_decoder_errors.2.2.2.2.2.2.2.1 [8, 0x50] [] 8 1 [] 0 3 (by decide),
   C9_decoder_errors.2.2.2.2.2.2.2.2.1 [8, 0x50, 2, 7] [] 8 1 [] 0 3 2 [7]
     (by decide) (by decide),
   C9_decoder_errors.2.2.2.2.2.2.2.2.2 [8, 0x41] [] 8 1 [] 0 3 0x41 []
     (by decide) (by decide) (by decide) (by decide) (by decide) (by decide)
     (by decide) (by decide)⟩

/-- Claim C10: `apply_patch` accepts a `D` record whose stored count byte is 0
without error, copying exactly one same-offset block (count = stored byte + 1);
the encoder never emits such a record, since every `D` chunk it produces has a
stored count byte of at least 1. -/
theorem C10_d_count_zero :
    (∀ (patch ref : List Nat) (B pos : Nat) (out : List Nat) (w fuel : Nat) (r : List Nat),
      patch.drop pos = 0x44 :: 0 :: r →
      applyLoop patch ref B pos out w (fuel + 1) =
        applyLoop patch ref B (pos + 2) (out ++ pySlice ref w (w + B)) (w + B) fuel) ∧
    (∀ fc r : Nat, dOk (chunkD r fc) = true) :=
  ⟨fun patch ref B pos out w fuel r h => by rw [applyStep_D h]; rfl,
   dOk_chunkD⟩

/-- Witness for C10 on a concrete zero-count `D` record. -/
theorem C10_d_count_zero_witness :
    applyLoop [8, 0x44, 0] (List.replicate 16 0) 8 1 [] 0 2 =
      applyLoop [8, 0x44, 0] (List.replicate 16 0) 8 (1 + 2)
        ([] ++ pySlice (List.replicate 16 0) 0 (0 + 8)) (0 + 8) 1 :=
  C10_d_count_zero.1 [8, 0x44, 0] (List.replicate 16 0) 8 1 [] 0 1 [] (by decide)
